import Mathlib

/-!
Verification of the greencrawler crawl engine against its specification.

The development shallowly embeds the Python source:
* greencrawler/classes.py : URLData (URL canonicaliser and fingerprint),
  TasksState (worker idle bits), CrawlingMode;
* greencrawler/__init__.py : Crawler (frontier store operations, link
  extraction, worker loop, session manager).

Python library functions the source relies on (re.match against its one
absolute-URL pattern, urllib.parse.urlparse / parse_qs / unquote,
hashlib.md5) are modelled as executable Lean functions.  Machine integers
are modelled as Nat with explicit reduction mod 2^32 where MD5 overflows.
Python exceptions are modelled with Except.
-/

namespace GreenCrawler

/-! ### Character classes (ASCII model of the Python semantics) -/

/-- ASCII uppercase letter. -/
def isAsciiUpper (c : Char) : Bool := 65 ≤ c.toNat && c.toNat ≤ 90

/-- ASCII lowercase letter. -/
def isAsciiLower (c : Char) : Bool := 97 ≤ c.toNat && c.toNat ≤ 122

/-- ASCII letter. -/
def isAsciiAlpha (c : Char) : Bool := isAsciiUpper c || isAsciiLower c

/-- ASCII digit. -/
def isAsciiDigit (c : Char) : Bool := 48 ≤ c.toNat && c.toNat ≤ 57

/-- ASCII letter or digit. -/
def isAlnum (c : Char) : Bool := isAsciiAlpha c || isAsciiDigit c

/-- ASCII letter, digit or hyphen: the character class [A-Z0-9-] under
re.IGNORECASE. -/
def isAlnumDash (c : Char) : Bool := isAlnum c || c = '-'

/-- Python regex whitespace (the complement of the regex class \S),
restricted to ASCII. -/
def pyIsSpace (c : Char) : Bool :=
  c.toNat = 32 || c.toNat = 9 || c.toNat = 10 || c.toNat = 13 ||
  c.toNat = 11 || c.toNat = 12

/-- C0 control characters and space, stripped from the front of a URL by
CPython's urlsplit. -/
def c0OrSpace (c : Char) : Bool := c.toNat ≤ 32

/-- Tab, carriage return and line feed, removed everywhere in a URL by
CPython's urlsplit. -/
def tabCrLf (c : Char) : Bool := c.toNat = 9 || c.toNat = 13 || c.toNat = 10

/-- Characters allowed after the first one in a URL scheme
(urllib.parse.scheme_chars). -/
def isSchemeChar (c : Char) : Bool :=
  isAsciiAlpha c || isAsciiDigit c || c = '+' || c = '-' || c = '.'

/-- Characters the absolute-URL pattern can consume between the scheme and
the trailing part (host letters, digits, hyphen, dot, port colon).  None
of them is a netloc delimiter, a bracket, or whitespace. -/
def netSafe (c : Char) : Bool := isAlnumDash c || c = '.' || c = ':'

/-! ### Small string helpers -/

/-- Python url.split('#')[0]: everything before the first '#'. -/
def stripFragment (s : String) : String :=
  String.mk (s.toList.takeWhile (· ≠ '#'))

/-- Python str.split(sep) for a one-character separator. -/
def splitOnChar (c : Char) : List Char → List (List Char)
  | [] => [[]]
  | x :: xs =>
    if x = c then [] :: splitOnChar c xs
    else
      match splitOnChar c xs with
      | h :: t => (x :: h) :: t
      | [] => [[x]]

/-- Is the first list a prefix of the second? -/
def hasPrefixL : List Char → List Char → Bool
  | [], _ => true
  | _ :: _, [] => false
  | p :: ps, c :: cs => p = c && hasPrefixL ps cs

/-- Python str.startswith. -/
def strStarts (s pat : String) : Bool := hasPrefixL pat.toList s.toList

/-- Python str.lower (ASCII model). -/
def lowerStr (s : String) : String := String.mk (s.toList.map Char.toLower)

/-- Lexicographic comparison of character lists by code point, the order
Python's sorted uses on strings. -/
def charListLe : List Char → List Char → Bool
  | [], _ => true
  | _ :: _, [] => false
  | a :: as, b :: bs =>
    if a.toNat < b.toNat then true
    else if b.toNat < a.toNat then false
    else charListLe as bs

/-- Python string comparison a <= b. -/
def strLe (a b : String) : Bool := charListLe a.toList b.toList

/-- Splits a list at the first occurrence of a character, if present. -/
def splitFirst (c : Char) : List Char → Option (List Char × List Char)
  | [] => none
  | x :: xs =>
    if x = c then some ([], xs)
    else (splitFirst c xs).map (fun p => (x :: p.1, p.2))

/-! ### The absolute-URL regular expression of URLData.__init__

The pattern (re.IGNORECASE):
  ^(?:http)s?://
  (?:(?:[A-Z0-9](?:[A-Z0-9-]{0,61}[A-Z0-9])?\.)+(?:[A-Z]{2,6}\.?|[A-Z0-9-]{2,}\.?)
    |localhost
    |\d{1,3}\.\d{1,3}\.\d{1,3}\.\d{1,3})
  (?::\d+)?
  (?:/?|[/?]\S+)$
The matcher below decides whether a match exists (re.match only has its
result compared with None), enumerating the possible split points of each
quantified subpattern.  Python's $ also matches just before one final
newline. -/

/-- Case-insensitive literal match; the pattern is given in lowercase.
Returns the remainder after the consumed prefix. -/
def consumeLitCI : List Char → List Char → Option (List Char)
  | [], cs => some cs
  | _ :: _, [] => none
  | p :: ps, c :: cs => if c.toLower = p then consumeLitCI ps cs else none

/-- All splits (take k, drop k) of a list for 1 ≤ k ≤ min n (length). -/
def prefixSplits (n : Nat) (cs : List Char) : List (List Char × List Char) :=
  (List.range' 1 (min n cs.length)).map (fun k => (cs.take k, cs.drop k))

/-- A DNS label: [A-Z0-9](?:[A-Z0-9-]{0,61}[A-Z0-9])? under IGNORECASE:
1 to 63 characters of [A-Za-z0-9-], first and last alphanumeric. -/
def validLabel (l : List Char) : Bool :=
  match l with
  | [] => false
  | c :: rest =>
    (c :: rest).length ≤ 63 && isAlnum c &&
    isAlnum ((c :: rest).getLast (by simp)) &&
    (c :: rest).all isAlnumDash

/-- Remainders after consuming one label followed by a dot. -/
def labelDotRemainders (cs : List Char) : List (List Char) :=
  (prefixSplits 63 cs).filterMap fun pr =>
    match pr.2 with
    | c :: r => if validLabel pr.1 ∧ c = '.' then some r else none
    | [] => none

/-- Remainders after one or more label-dot groups ((?:label\.)+).  The fuel
dominates the input length, and each group consumes at least two
characters. -/
def labelDotPlusAux : Nat → List Char → List (List Char)
  | 0, _ => []
  | fuel + 1, cs =>
    let one := labelDotRemainders cs
    one ++ one.flatMap (labelDotPlusAux fuel)

/-- Remainders after the top-level-domain alternative
(?:[A-Z]{2,6}\.?|[A-Z0-9-]{2,}\.?). -/
def tldRemainders (cs : List Char) : List (List Char) :=
  let alpha :=
    (prefixSplits 6 cs).filterMap fun pr =>
      if 2 ≤ pr.1.length && pr.1.all isAsciiAlpha then some pr.2 else none
  let alnum :=
    (prefixSplits cs.length cs).filterMap fun pr =>
      if 2 ≤ pr.1.length && pr.1.all isAlnumDash then some pr.2 else none
  (alpha ++ alnum).flatMap fun r =>
    match r with
    | c :: r2 => if c = '.' then [r, r2] else [r]
    | [] => [r]

/-- Remainders after \d{1,3}. -/
def ipPartRemainders (cs : List Char) : List (List Char) :=
  (prefixSplits 3 cs).filterMap fun pr =>
    if pr.1.all isAsciiDigit then some pr.2 else none

/-- Remainders after a literal dot. -/
def dotRemainders (cs : List Char) : List (List Char) :=
  match cs with
  | c :: r => if c = '.' then [r] else []
  | [] => []

/-- Remainders after \d{1,3}\.\d{1,3}\.\d{1,3}\.\d{1,3}. -/
def ipv4Remainders (cs : List Char) : List (List Char) :=
  ((((((ipPartRemainders cs).flatMap dotRemainders).flatMap
      ipPartRemainders).flatMap dotRemainders).flatMap
      ipPartRemainders).flatMap dotRemainders).flatMap ipPartRemainders

/-- Remainders after the host alternative: dotted domain, localhost, or
dotted-quad IPv4. -/
def hostRemainders (cs : List Char) : List (List Char) :=
  ((labelDotPlusAux (cs.length + 1) cs).flatMap tldRemainders) ++
  (consumeLitCI "localhost".toList cs).toList ++
  ipv4Remainders cs

/-- Remainders after the optional port (?::\d+)?. -/
def portRemainders (cs : List Char) : List (List Char) :=
  cs :: (match cs with
    | c :: r2 =>
      if c = ':' then
        (prefixSplits r2.length r2).filterMap fun pr =>
          if pr.1.all isAsciiDigit then some pr.2 else none
      else []
    | [] => [])

/-- End of input for the anchor $: the true end, or just before one final
newline. -/
def endOk (cs : List Char) : Bool :=
  match cs with
  | [] => true
  | [c] => c = '\n'
  | _ => false

/-- The trailing alternative (?:/?|[/?]\S+) followed by $. -/
def tailOk (cs : List Char) : Bool :=
  endOk cs ||
  (match cs with
   | c :: rest =>
     (c = '/' && endOk rest) ||
     ((c = '/' || c = '?') &&
      (let core := if rest.getLast? = some '\n' then rest.dropLast else rest
       (!core.isEmpty) && core.all (fun x => !pyIsSpace x) &&
       (rest.length = core.length || rest.length = core.length + 1)))
   | [] => false)

/-- re.match of the absolute-URL pattern on a character list. -/
def matchesAbsoluteL (cs : List Char) : Bool :=
  match (consumeLitCI "http://".toList cs).orElse
        (fun _ => consumeLitCI "https://".toList cs) with
  | none => false
  | some r =>
    (hostRemainders r).any fun hr => (portRemainders hr).any tailOk

/-- re.match(regex, s) is not None, for the absolute-URL pattern. -/
def matchesAbsolute (s : String) : Bool := matchesAbsoluteL s.toList

/-! ### urllib.parse.urlparse (the components the crawler reads)

CPython's urlsplit first strips leading C0-control/space characters, then
removes every tab, CR and LF; it then splits off scheme, netloc, fragment
and query.  A netloc containing a bracket makes CPython validate it as an
IPv6/IPvFuture host and raise ValueError when invalid; we model every
bracketed netloc as raising, and the theorems below stay on bracket-free
inputs, where the model is exact. -/

structure PyParse where
  scheme : String
  netloc : String
  path : String
  query : String
  fragment : String
deriving DecidableEq, Repr

/-- The urlsplit preprocessing of the URL string. -/
def preprocessUrl (cs : List Char) : List Char :=
  (cs.dropWhile c0OrSpace).filter (fun c => !tabCrLf c)

/-- Stop characters ending the netloc. -/
def netlocStop (c : Char) : Bool := c = '/' || c = '?' || c = '#'

/-- Scheme extraction: chars before the first colon when they form a
valid scheme, lowercased. -/
def schemeSplitF (cs : List Char) : List Char × List Char :=
  match splitFirst ':' cs with
  | some (pre, post) =>
    match pre with
    | [] => ([], cs)
    | c0 :: crest =>
      if isAsciiAlpha c0 && crest.all isSchemeChar then
        ((c0 :: crest).map Char.toLower, post)
      else ([], cs)
  | none => ([], cs)

/-- Netloc extraction after a double slash, up to the first delimiter. -/
def netlocSplitF (rest : List Char) : List Char × List Char :=
  match rest with
  | c1 :: c2 :: r =>
    if c1 = '/' ∧ c2 = '/' then
      (r.takeWhile (fun c => !netlocStop c),
       r.dropWhile (fun c => !netlocStop c))
    else ([], rest)
  | _ => ([], rest)

/-- Fragment split at the first hash. -/
def fragSplitF (rest2 : List Char) : List Char × List Char :=
  match splitFirst '#' rest2 with
  | some (a, b) => (a, b)
  | none => (rest2, [])

/-- Query split at the first question mark. -/
def querySplitF (rest3 : List Char) : List Char × List Char :=
  match splitFirst '?' rest3 with
  | some (a, b) => (a, b)
  | none => (rest3, [])

/-- The splitting core of urlsplit, applied after preprocessing. -/
def pyUrlsplitCore (cs : List Char) : PyParse :=
  let s1 := schemeSplitF cs
  let n1 := netlocSplitF s1.2
  let f1 := fragSplitF n1.2
  let q1 := querySplitF f1.1
  ⟨String.mk s1.1, String.mk n1.1, String.mk q1.1, String.mk q1.2,
   String.mk f1.2⟩

/-- urllib.parse.urlparse, restricted to the five string components. -/
def pyUrlsplit (s : String) : PyParse :=
  pyUrlsplitCore (preprocessUrl s.toList)

/-- True when CPython's urlsplit raises ValueError on this URL (bracketed
netloc; see the note above). -/
def urlsplitRaises (s : String) : Bool :=
  let n := (pyUrlsplit s).netloc.toList
  n.any (· = '[') || n.any (· = ']')

/-! ### URLData.__init__ (classes.py lines 46-87)

The result is the final full_url: .ok (some c) when the URL is valid with
canonical form c, .ok none for the "not valid" sentinel (full_url = None),
.error for an escaping Python exception: TypeError from
re.match(regex, None) when parent_url is None and the URL is schemeless,
ValueError from urlparse on a bracketed netloc. -/

inductive PyErr where
  | typeError
  | valueError
deriving DecidableEq, Repr

deriving instance DecidableEq for Except

/-- Python str.split('/'). -/
def pyPathParts (s : String) : List String :=
  (splitOnChar '/' s.toList).map String.mk

/-- The relative-resolution cases of URLData.__init__ (lines 68-81):
inherit scheme for a protocol-relative link, scheme and netloc for an
absolute path, scheme, netloc and path for a bare query, and otherwise
replace the last path segment of the parent with the link. -/
def resolveRelative (url p : String) : String :=
  let pd := pyUrlsplit p
  if strStarts url "//" then pd.scheme ++ ":" ++ url
  else if strStarts url "/" then pd.scheme ++ "://" ++ pd.netloc ++ url
  else if strStarts url "?" then
    pd.scheme ++ "://" ++ pd.netloc ++
    (if pd.path ≠ "" then pd.path else "/") ++ url
  else
    let parts := pyPathParts pd.path
    pd.scheme ++ "://" ++ pd.netloc ++
    (if parts.length = 1 then "/" else "") ++
    String.intercalate "/" (parts.dropLast ++ [url])

def urldataInit (url : String) (parent : Option String) :
    Except PyErr (Option String) :=
  if urlsplitRaises (stripFragment url) then .error .valueError
  else if matchesAbsolute (stripFragment url) then
    .ok (some (stripFragment url))
  else if (pyUrlsplit (stripFragment url)).scheme ≠ "" then .ok none
  else
    match parent with
    | none => .error .typeError
    | some p =>
      if ¬ matchesAbsolute p then .ok none
      else if url = "" ∨ strStarts url "#" then .ok none
      else if ¬ matchesAbsolute (stripFragment (resolveRelative url p)) then
        .ok none
      else if urlsplitRaises (stripFragment (resolveRelative url p)) then
        .error .valueError
      else .ok (some (stripFragment (resolveRelative url p)))

/-! ### urllib.parse.parse_qs (query parsing for the fingerprint)

parse_qsl splits the query on '&', drops empty fields, fields without '='
and fields with an empty value, replaces '+' by a space and
percent-decodes name and value (UTF-8, with U+FFFD for undecodable
bytes; we replace malformed bytes one at a time).  parse_qs then groups
the values of each name, in first-occurrence order. -/

/-- Value of one hex digit (both cases), as used by unquote. -/
def hexVal (c : Char) : Option Nat :=
  if 48 ≤ c.toNat ∧ c.toNat ≤ 57 then some (c.toNat - 48)
  else if 97 ≤ c.toNat ∧ c.toNat ≤ 102 then some (c.toNat - 87)
  else if 65 ≤ c.toNat ∧ c.toNat ≤ 70 then some (c.toNat - 55)
  else none

/-- The Unicode replacement character. -/
def replChar : Char := Char.ofNat 0xFFFD

/-- Does a byte look like a UTF-8 continuation byte? -/
def isContByte (b : Nat) : Bool := 128 ≤ b && b ≤ 191

/-- UTF-8 decoding with replacement of malformed bytes (fuel-driven; the
fuel is the byte count, and every step consumes at least one byte). -/
def utf8DecodeAux : Nat → List Nat → List Char
  | 0, _ => []
  | _, [] => []
  | fuel + 1, b :: rest =>
    if b < 128 then Char.ofNat b :: utf8DecodeAux fuel rest
    else if 194 ≤ b ∧ b ≤ 223 then
      match rest with
      | b2 :: rest2 =>
        if isContByte b2 then
          Char.ofNat ((b - 192) * 64 + (b2 - 128)) :: utf8DecodeAux fuel rest2
        else replChar :: utf8DecodeAux fuel rest
      | [] => [replChar]
    else if 224 ≤ b ∧ b ≤ 239 then
      match rest with
      | b2 :: b3 :: rest3 =>
        if (if b = 224 then 160 ≤ b2 && b2 ≤ 191
            else if b = 237 then 128 ≤ b2 && b2 ≤ 159
            else isContByte b2) && isContByte b3 then
          Char.ofNat ((b - 224) * 4096 + (b2 - 128) * 64 + (b3 - 128)) ::
            utf8DecodeAux fuel rest3
        else replChar :: utf8DecodeAux fuel rest
      | _ => replChar :: utf8DecodeAux fuel rest
    else if 240 ≤ b ∧ b ≤ 244 then
      match rest with
      | b2 :: b3 :: b4 :: rest4 =>
        if (if b = 240 then 144 ≤ b2 && b2 ≤ 191
            else if b = 244 then 128 ≤ b2 && b2 ≤ 143
            else isContByte b2) && isContByte b3 && isContByte b4 then
          Char.ofNat ((b - 240) * 262144 + (b2 - 128) * 4096 +
            (b3 - 128) * 64 + (b4 - 128)) :: utf8DecodeAux fuel rest4
        else replChar :: utf8DecodeAux fuel rest
      | _ => replChar :: utf8DecodeAux fuel rest
    else replChar :: utf8DecodeAux fuel rest

/-- UTF-8 decoding with replacement of malformed bytes. -/
def utf8DecodeReplace (bs : List Nat) : List Char :=
  utf8DecodeAux bs.length bs

/-- Collects a maximal run of %XX escapes, returning the decoded bytes and
the remainder (fuel-driven; every escape consumes three characters). -/
def percentRunAux : Nat → List Char → List Nat × List Char
  | 0, cs => ([], cs)
  | fuel + 1, '%' :: a :: b :: rest =>
    match hexVal a, hexVal b with
    | some x, some y =>
      let pr := percentRunAux fuel rest
      ((16 * x + y) :: pr.1, pr.2)
    | _, _ => ([], '%' :: a :: b :: rest)
  | _, cs => ([], cs)

def percentRun (cs : List Char) : List Nat × List Char :=
  percentRunAux cs.length cs

/-- urllib.parse.unquote: percent-decoding (fuel-driven; the fuel is the
input length, and every step consumes at least one character). -/
def unquoteAux : Nat → List Char → List Char
  | 0, _ => []
  | _, [] => []
  | fuel + 1, '%' :: a :: b :: rest =>
    if (hexVal a).isSome && (hexVal b).isSome then
      let pr := percentRun ('%' :: a :: b :: rest)
      utf8DecodeReplace pr.1 ++ unquoteAux fuel pr.2
    else '%' :: unquoteAux fuel (a :: b :: rest)
  | fuel + 1, c :: rest => c :: unquoteAux fuel rest

def pyUnquote (s : String) : String :=
  String.mk (unquoteAux s.toList.length s.toList)

/-- The '+'-to-space replacement applied before unquote in parse_qsl. -/
def plusToSpace (cs : List Char) : List Char :=
  cs.map (fun c => if c = '+' then ' ' else c)

/-- urllib.parse.parse_qsl with default arguments. -/
def parseQsl (qs : String) : List (String × String) :=
  (splitOnChar '&' qs.toList).filterMap fun field =>
    if field = [] then none
    else
      match splitFirst '=' field with
      | none => none
      | some (n, v) =>
        if v = [] then none
        else some (pyUnquote (String.mk (plusToSpace n)),
                   pyUnquote (String.mk (plusToSpace v)))

/-- Appends one name-value pair to the grouped representation, preserving
first-occurrence key order as a Python dict does. -/
def addPair : List (String × List String) → String × String →
    List (String × List String)
  | [], p => [(p.1, [p.2])]
  | (k0, vs) :: rest, p =>
    if k0 = p.1 then (k0, vs ++ [p.2]) :: rest
    else (k0, vs) :: addPair rest p

/-- urllib.parse.parse_qs: key → multi-value pairs in first-occurrence
order. -/
def parseQs (qs : String) : List (String × List String) :=
  (parseQsl qs).foldl addPair []

/-! ### hashlib.md5 -/

/-- 2^32. -/
def M32 : Nat := 4294967296

/-- The 64 MD5 sine-table constants floor(abs(sin(i+1)) * 2^32). -/
def md5K : List Nat :=
  [3614090360, 3905402710, 606105819, 3250441966, 4118548399, 1200080426,
   2821735955, 4249261313, 1770035416, 2336552879, 4294925233, 2304563134,
   1804603682, 4254626195, 2792965006, 1236535329, 4129170786, 3225465664,
   643717713, 3921069994, 3593408605, 38016083, 3634488961, 3889429448,
   568446438, 3275163606, 4107603335, 1163531501, 2850285829, 4243563512,
   1735328473, 2368359562, 4294588738, 2272392833, 1839030562, 4259657740,
   2763975236, 1272893353, 4139469664, 3200236656, 681279174, 3936430074,
   3572445317, 76029189, 3654602809, 3873151461, 530742520, 3299628645,
   4096336452, 1126891415, 2878612391, 4237533241, 1700485571, 2399980690,
   4293915773, 2240044497, 1873313359, 4264355552, 2734768916, 1309151649,
   4149444226, 3174756917, 718787259, 3951481745]

/-- The per-round left-rotation amounts. -/
def md5S : List Nat :=
  [7, 12, 17, 22, 7, 12, 17, 22, 7, 12, 17, 22, 7, 12, 17, 22,
   5, 9, 14, 20, 5, 9, 14, 20, 5, 9, 14, 20, 5, 9, 14, 20,
   4, 11, 16, 23, 4, 11, 16, 23, 4, 11, 16, 23, 4, 11, 16, 23,
   6, 10, 15, 21, 6, 10, 15, 21, 6, 10, 15, 21, 6, 10, 15, 21]

/-- 32-bit left rotation on Nat values below 2^32. -/
def rotl32 (x n : Nat) : Nat := ((x <<< n) ||| (x >>> (32 - n))) % M32

/-- The round-dependent nonlinear function. -/
def md5F (i b c d : Nat) : Nat :=
  if i < 16 then (b &&& c) ||| ((b ^^^ 4294967295) &&& d)
  else if i < 32 then (d &&& b) ||| ((d ^^^ 4294967295) &&& c)
  else if i < 48 then b ^^^ c ^^^ d
  else c ^^^ (b ||| (d ^^^ 4294967295))

/-- The round-dependent message-word index. -/
def md5G (i : Nat) : Nat :=
  if i < 16 then i
  else if i < 32 then (5 * i + 1) % 16
  else if i < 48 then (3 * i + 5) % 16
  else (7 * i) % 16

structure MD5State where
  a : Nat
  b : Nat
  c : Nat
  d : Nat
deriving DecidableEq, Repr

/-- One MD5 round on the state, with message words M. -/
def md5Round (M : List Nat) (st : MD5State) (i : Nat) : MD5State :=
  let f := (md5F i st.b st.c st.d + st.a + md5K.getD i 0 +
            M.getD (md5G i) 0) % M32
  ⟨st.d, (st.b + rotl32 f (md5S.getD i 0)) % M32, st.b, st.c⟩

/-- The 64-round compression of one chunk. -/
def md5Compress (st : MD5State) (M : List Nat) : MD5State :=
  let r := (List.range 64).foldl (md5Round M) st
  ⟨(st.a + r.a) % M32, (st.b + r.b) % M32, (st.c + r.c) % M32,
   (st.d + r.d) % M32⟩

/-- Groups a 64-byte chunk into 16 little-endian 32-bit words. -/
def leWords : List Nat → List Nat
  | b0 :: b1 :: b2 :: b3 :: rest =>
    (b0 + 256 * b1 + 65536 * b2 + 16777216 * b3) :: leWords rest
  | _ => []

/-- Splits a byte list into chunks of 64 (fuel-driven; every chunk
consumes at least one byte). -/
def chunks64Aux : Nat → List Nat → List (List Nat)
  | 0, _ => []
  | _, [] => []
  | fuel + 1, b :: rest => ((b :: rest).take 64) :: chunks64Aux fuel (rest.drop 63)

def chunks64 (bs : List Nat) : List (List Nat) := chunks64Aux bs.length bs

/-- The 8 little-endian bytes of the 64-bit message bit length. -/
def leBytes8 (n : Nat) : List Nat :=
  (List.range 8).map (fun i => n / 256 ^ i % 256)

/-- MD5 padding: 0x80, zeros to 56 mod 64, then the bit length. -/
def md5Pad (msg : List Nat) : List Nat :=
  msg ++ [128] ++ List.replicate ((119 - msg.length % 64) % 64) 0 ++
  leBytes8 (msg.length * 8 % 2 ^ 64)

/-- The four little-endian bytes of a 32-bit word. -/
def wordLEBytes (w : Nat) : List Nat :=
  [w % 256, w / 256 % 256, w / 65536 % 256, w / 16777216 % 256]

/-- The 16-byte MD5 digest of a byte string. -/
def md5Digest (msg : List Nat) : List Nat :=
  let st := (chunks64 (md5Pad msg)).foldl
    (fun st chunk => md5Compress st (leWords chunk))
    ⟨1732584193, 4023233417, 2562383102, 271733878⟩
  wordLEBytes st.a ++ wordLEBytes st.b ++ wordLEBytes st.c ++ wordLEBytes st.d

/-- Lowercase hexadecimal digit. -/
def isLowerHexDigit (ch : Char) : Bool :=
  isAsciiDigit ch || (97 ≤ ch.toNat && ch.toNat ≤ 102)

/-- The lowercase hex digit of a value below sixteen: digits are the
ASCII codes from 48, the letters a-f the codes from 97. -/
def hexDigit (n : Nat) : Char :=
  if n < 10 then Char.ofNat (48 + n) else Char.ofNat (87 + n)

/-- hashlib.md5(...).hexdigest(). -/
def md5hex (msg : List Nat) : String :=
  String.mk ((md5Digest msg).flatMap (fun b => [hexDigit (b / 16), hexDigit (b % 16)]))

/-- UTF-8 encoding of one character (Python str.encode()). -/
def utf8Char (c : Char) : List Nat :=
  let n := c.toNat
  if n < 128 then [n]
  else if n < 2048 then [192 + n / 64, 128 + n % 64]
  else if n < 65536 then [224 + n / 4096, 128 + n / 64 % 64, 128 + n % 64]
  else [240 + n / 262144, 128 + n / 4096 % 64, 128 + n / 64 % 64, 128 + n % 64]

/-- UTF-8 encoding of a string. -/
def utf8Encode (s : String) : List Nat := s.toList.flatMap utf8Char

/-! ### URLData.hash (classes.py lines 108-124) -/

/-- The host component of the fingerprint: lowercased netloc with a
leading www. removed. -/
def hashHostOf (netloc : String) : String :=
  let n := lowerStr netloc
  if strStarts n "www." then String.mk (n.toList.drop 4) else n

/-- re.sub("//+", "/", s): collapse every run of two or more slashes.
The flag records whether the previous character was a slash. -/
def collapseAux (prevSlash : Bool) : List Char → List Char
  | [] => []
  | c :: rest =>
    if c = '/' then
      if prevSlash then collapseAux true rest
      else '/' :: collapseAux true rest
    else c :: collapseAux false rest

def collapseSlashes (cs : List Char) : List Char := collapseAux false cs

/-- The path component of the fingerprint. -/
def hashPathOf (path : String) : String :=
  if path ≠ "" then String.mk (collapseSlashes (lowerStr path).toList)
  else "/"

/-- The canonical query component: grouped pairs sorted (by Python's tuple
order, i.e. by the raw key; keys are distinct), each rendered as
lowercased key '=' lowercased-and-sorted values joined by '#', all joined
by '&'. -/
def canonicalQuery (q : String) : String :=
  let pairs := List.insertionSort (fun a b => strLe a.1 b.1 = true) (parseQs q)
  String.intercalate "&" (pairs.map fun p =>
    lowerStr p.1 ++ "=" ++
    String.intercalate "#"
      (List.insertionSort (fun a b => strLe a b = true) (p.2.map lowerStr)))

/-- The parsed query with keys and values lowercased and each key's values
sorted: two query strings are "equal after lowercasing keys and values,
irrespective of pair order" exactly when these normal forms are
permutations of one another. -/
def lowerNormQuery (q : String) : List (String × List String) :=
  (parseQs q).map fun p =>
    (lowerStr p.1,
     List.insertionSort (fun a b => strLe a b = true) (p.2.map lowerStr))

/-- Like lowerNormQuery, but keeping the raw key, which is what the code
sorts by. -/
def rawNormQuery (q : String) : List (String × List String) :=
  (parseQs q).map fun p =>
    (p.1,
     List.insertionSort (fun a b => strLe a b = true) (p.2.map lowerStr))

/-- One grouped pair with its values lowercased and sorted, the raw key
kept: rawNormQuery maps this over parseQs. -/
def normPair (p : String × List String) : String × List String :=
  (p.1, List.insertionSort (fun a b => strLe a b = true) (p.2.map lowerStr))

/-- The rendering of one normalised pair inside the canonical query. -/
def renderPair (p : String × List String) : String :=
  lowerStr p.1 ++ "=" ++ String.intercalate "#" p.2

/-- The string whose MD5 is the fingerprint:
scheme > host > path > query. -/
def hashPreimage (d : PyParse) : String :=
  d.scheme ++ ">" ++ hashHostOf d.netloc ++ ">" ++ hashPathOf d.path ++ ">" ++
  canonicalQuery d.query

/-- URLData.hash: None unless the scheme starts with "http", otherwise the
32-hex MD5 of the canonical form. -/
def urlHash (full_url : String) : Option String :=
  let d := pyUrlsplit full_url
  if strStarts d.scheme "http" then
    some (md5hex (utf8Encode (hashPreimage d)))
  else none

/-- The fingerprint of a raw link as the crawler computes it: canonicalise
with URLData, then hash; None when the URL is invalid or the constructor
raises. -/
def fingerprint (url : String) (parent : Option String) : Option String :=
  match urldataInit url parent with
  | .ok (some c) => urlHash c
  | _ => none

/-! ### The persistent data model (data.py / _define_db_tables)

The urls table rows, with the UNIQUE (token_id, hash_id) constraint of the
store modelled in the insert operation.  As in SQLite, two NULL hash_id
values do not collide. -/

inductive CrawlingMode where
  | DOMAIN_ONLY
  | DOMAIN_AND_SUBDOMAINS
  | ALL
deriving DecidableEq, Repr

structure Token where
  id : Nat
  url : String
  mode : CrawlingMode
deriving DecidableEq, Repr

structure URLRecord where
  id : Nat
  hash_id : Option String
  token_id : Nat
  url : String
  status : Option Int
  fetched : Bool
  processed : Bool
deriving DecidableEq, Repr

inductive CrawlerErr where
  | tokenNotFound
deriving DecidableEq, Repr

inductive DBErr where
  | integrityError
deriving DecidableEq, Repr

/-- The UPDATE issued by Crawler.resume (lines 330-335): set fetched=false
on the token's rows having processed=false and fetched=true. -/
def resetInflight (tokenId : Nat) (urls : List URLRecord) : List URLRecord :=
  urls.map fun r =>
    if r.token_id = tokenId ∧ r.processed = false ∧ r.fetched = true then
      { r with fetched := false }
    else r

/-- The prefix of Crawler.resume up to and including the reset: reject a
falsy or unknown token_id, then reset the in-flight rows.  (The busy guard
and the worker spawn that follow are not part of the reset.) -/
def resumeReset (tokens : List Token) (tokenId : Nat)
    (urls : List URLRecord) : Except CrawlerErr (List URLRecord) :=
  if tokenId = 0 then .error .tokenNotFound
  else
    match tokens.find? (fun t => t.id == tokenId) with
    | none => .error .tokenNotFound
    | some _ => .ok (resetInflight tokenId urls)

/-- A fresh autoincrement id. -/
def freshId (urls : List URLRecord) : Nat :=
  urls.foldr (fun r m => max r.id m) 0 + 1

/-- Crawler._add_url (lines 133-141): a plain INSERT with no exception
handling; a (token_id, hash_id) collision with a non-NULL hash violates
the UNIQUE constraint and the IntegrityError propagates to the caller. -/
def addUrl (tokenId : Nat) (url : String) (hashId : Option String)
    (urls : List URLRecord) : Except DBErr (List URLRecord) :=
  if urls.any (fun r =>
      r.token_id == tokenId && hashId.isSome && r.hash_id == hashId) then
    .error .integrityError
  else
    .ok (urls ++ [⟨freshId urls, hashId, tokenId, url, none, false, false⟩])

/-! ### The body-processing condition of Crawler.task (line 282)

The source guards _process_url (which ends by invoking the user hook
custom_process_url) with: if html and (status >= 200 or status <= 299). -/

/-- The condition under which Crawler.task passes the fetched page to
_process_url and hence to custom_process_url. -/
def shouldProcess (status : Int) (html : String) : Bool :=
  html != "" && (decide (200 ≤ status) || decide (status ≤ 299))

/-! ### TasksState and the worker pool (classes.py 18-37, task 256-266)

The worker loop of Crawler.task is embedded as a labelled transition
system: each worker is between awaits in exactly one of four phases, and
each transition is one atomic segment of the loop (the asyncio event loop
interleaves only at awaits).  The frontier is abstracted to the number of
claimable rows; the fetcher of the quiescence scenario produces no new
links, so finishing work adds nothing to the frontier. -/

/-- TasksState.set_free_task. -/
def setFreeTask (bits : List Bool) (i : Nat) : List Bool := bits.set i true

/-- TasksState.reset: all tasks marked busy. -/
def resetTasks (n : Nat) : List Bool := List.replicate n false

/-- TasksState.__bool__: all tasks are free. -/
def allFree (bits : List Bool) : Bool := bits.all id

inductive Phase where
  | check
  | sleeping
  | working
  | done
deriving DecidableEq, Repr

structure PoolState where
  bits : List Bool
  frontier : Nat
  phases : List Phase
deriving DecidableEq, Repr

/-- One atomic segment of worker i's loop.
exit: the loop's break when all idle bits are set.
claim: a row is dequeued: the bits are all cleared (TasksState.reset) and
the row leaves the claimable frontier (mark_fetched) before any
processing.
idle: the frontier is empty: the worker sets its own bit and sleeps.
wake: return from the 1-second sleep to the top of the loop.
finishWork: fetch plus mark_processed, producing no new links. -/
inductive Step (i : Nat) : PoolState → PoolState → Prop where
  | exit : ∀ s : PoolState, s.phases[i]? = some .check →
      allFree s.bits = true →
      Step i s ⟨s.bits, s.frontier, s.phases.set i .done⟩
  | claim : ∀ (s : PoolState) (n : Nat), s.phases[i]? = some .check →
      allFree s.bits = false → s.frontier = n + 1 →
      Step i s ⟨resetTasks s.bits.length, n, s.phases.set i .working⟩
  | idle : ∀ s : PoolState, s.phases[i]? = some .check →
      allFree s.bits = false → s.frontier = 0 →
      Step i s ⟨setFreeTask s.bits i, 0, s.phases.set i .sleeping⟩
  | wake : ∀ s : PoolState, s.phases[i]? = some .sleeping →
      Step i s ⟨s.bits, s.frontier, s.phases.set i .check⟩
  | finishWork : ∀ s : PoolState, s.phases[i]? = some .working →
      Step i s ⟨s.bits, s.frontier, s.phases.set i .check⟩

/-- Quiescence: every idle bit is set and the frontier is empty. -/
def Quiet (s : PoolState) : Prop := allFree s.bits = true ∧ s.frontier = 0

/-- Steps a worker still has to take before its loop can end. -/
def phaseRank : Phase → Nat
  | .done => 0
  | .check => 1
  | .sleeping => 2
  | .working => 2

/-- The termination measure of the pool. -/
def totalRank (s : PoolState) : Nat := (s.phases.map phaseRank).sum

/-- Every worker has left its loop. -/
def AllDone (s : PoolState) : Prop := ∀ p ∈ s.phases, p = Phase.done

/-- What the reset of Crawler.resume guarantees: same number of rows; every
row of the token is processed or re-claimable; rows not matching the
predicate (other tokens, processed rows, unclaimed rows) are untouched,
and matching rows change exactly their fetched flag. -/
def ResetSpec (tokenId : Nat) (urls urls' : List URLRecord) : Prop :=
  urls'.length = urls.length ∧
  (∀ r ∈ urls', r.token_id = tokenId →
    r.processed = true ∨ (r.fetched = false ∧ r.processed = false)) ∧
  (∀ (i : Nat) (r r' : URLRecord), urls[i]? = some r → urls'[i]? = some r' →
    ((r.token_id ≠ tokenId ∨ r.processed = true ∨ r.fetched = false) →
      r' = r) ∧
    (r.token_id = tokenId → r.processed = false → r.fetched = true →
      r' = { r with fetched := false }))

end GreenCrawler

namespace GreenCrawler

set_option maxRecDepth 40000

/-! ## Helper lemmas about characters and list splitting -/

/-- Char.ofNat is left inverse to toNat on the ASCII range. -/
theorem toNat_ofNat_small : ∀ n, n < 123 → (Char.ofNat n).toNat = n := by
  decide

/-- Char.toLower either fixes a character or shifts an uppercase letter by
32. -/
theorem char_toLower_spec (c : Char) :
    (Char.toLower c = c ∧ ¬(65 ≤ c.toNat ∧ c.toNat ≤ 90)) ∨
    (65 ≤ c.toNat ∧ c.toNat ≤ 90 ∧ (Char.toLower c).toNat = c.toNat + 32) := by
  unfold Char.toLower
  by_cases h : 65 ≤ c.toNat ∧ c.toNat ≤ 90
  · right
    refine ⟨h.1, h.2, ?_⟩
    rw [if_pos ⟨h.1, h.2⟩]
    exact toNat_ofNat_small _ (by omega)
  · left
    refine ⟨?_, h⟩
    rw [if_neg ?_]
    intro hc
    exact h ⟨hc.1, hc.2⟩

/-- If toLower c is the character p, then c is p itself or its uppercase
variant 32 code points below. -/
theorem toLower_toNat_cases (c p : Char) (h : Char.toLower c = p) :
    c = p ∨ (65 ≤ c.toNat ∧ c.toNat ≤ 90 ∧ p.toNat = c.toNat + 32) := by
  rcases char_toLower_spec c with ⟨he, _⟩ | ⟨h1, h2, h3⟩
  · exact Or.inl (he ▸ h)
  · exact Or.inr ⟨h1, h2, by rw [← h]; exact h3⟩

/-- A character equals a literal iff their code points agree. -/
theorem char_eq_of_toNat (c p : Char) (h : c.toNat = p.toNat) : c = p := by
  apply Char.ext
  have h1 : c.val.toNat = p.val.toNat := h
  exact UInt32.toNat.inj h1

/-- splitFirst finds the first occurrence of the separator. -/
theorem splitFirst_append (c : Char) (pre post : List Char) (h : c ∉ pre) :
    splitFirst c (pre ++ c :: post) = some (pre, post) := by
  induction pre with
  | nil => simp [splitFirst]
  | cons x xs ih =>
    have hx : x ≠ c := fun he => h (he ▸ List.mem_cons_self x xs)
    have hih := ih (fun hm => h (List.mem_cons_of_mem x hm))
    simp [splitFirst, hx, hih]

/-- Inversion for splitFirst. -/
theorem splitFirst_eq (c : Char) (cs a b : List Char)
    (h : splitFirst c cs = some (a, b)) : cs = a ++ c :: b := by
  induction cs generalizing a with
  | nil => simp [splitFirst] at h
  | cons x xs ih =>
    by_cases hx : x = c
    · subst hx
      simp [splitFirst] at h
      simp [h.1, h.2]
    · simp only [splitFirst, if_neg hx] at h
      cases hsf : splitFirst c xs with
      | none => rw [hsf] at h; simp at h
      | some pr =>
        rw [hsf] at h
        have h2 : (x :: pr.1, pr.2) = (a, b) := by simpa using h
        have ha : x :: pr.1 = a := congrArg Prod.fst h2
        have hb : pr.2 = b := congrArg Prod.snd h2
        have hxs : xs = pr.1 ++ c :: b := ih pr.1 (by rw [hsf, ← hb])
        subst ha
        rw [hxs]
        simp

/-- A none result for splitFirst means the separator is absent. -/
theorem splitFirst_none (c : Char) (cs : List Char)
    (h : c ∉ cs) : splitFirst c cs = none := by
  induction cs with
  | nil => rfl
  | cons x xs ih =>
    have hx : x ≠ c := fun he => h (he ▸ List.mem_cons_self x xs)
    simp [splitFirst, hx, ih (fun hm => h (List.mem_cons_of_mem x hm))]

/-- takeWhile passes over a block that satisfies the predicate. -/
theorem takeWhile_append_all {p : Char → Bool} (l1 l2 : List Char)
    (h : ∀ a ∈ l1, p a = true) :
    (l1 ++ l2).takeWhile p = l1 ++ l2.takeWhile p := by
  induction l1 with
  | nil => simp
  | cons x xs ih =>
    have hx := h x (List.mem_cons_self x xs)
    simp [List.takeWhile_cons, hx, ih (fun a ha => h a (List.mem_cons_of_mem x ha))]

/-- Character equality is code-point equality. -/
theorem char_eq_iff_toNat (c p : Char) : c = p ↔ c.toNat = p.toNat :=
  ⟨fun h => by rw [h], fun h => char_eq_of_toNat c p h⟩

/-- Arithmetic characterisation of netSafe. -/
theorem netSafe_iff (c : Char) : netSafe c = true ↔
    (65 ≤ c.toNat ∧ c.toNat ≤ 90) ∨ (97 ≤ c.toNat ∧ c.toNat ≤ 122) ∨
    (48 ≤ c.toNat ∧ c.toNat ≤ 57) ∨ c.toNat = 45 ∨ c.toNat = 46 ∨
    c.toNat = 58 := by
  simp only [netSafe, isAlnumDash, isAlnum, isAsciiAlpha, isAsciiUpper,
    isAsciiLower, isAsciiDigit, Bool.or_eq_true, Bool.and_eq_true,
    decide_eq_true_eq, char_eq_iff_toNat]
  have h1 : ('-').toNat = 45 := by decide
  have h2 : ('.').toNat = 46 := by decide
  have h3 : (':').toNat = 58 := by decide
  rw [h1, h2, h3]
  omega

/-- Arithmetic characterisation of tabCrLf. -/
theorem tabCrLf_iff (c : Char) : tabCrLf c = true ↔
    c.toNat = 9 ∨ c.toNat = 13 ∨ c.toNat = 10 := by
  simp only [tabCrLf, Bool.or_eq_true, decide_eq_true_eq]
  omega

/-- Arithmetic characterisation of netlocStop. -/
theorem netlocStop_iff (c : Char) : netlocStop c = true ↔
    c.toNat = 47 ∨ c.toNat = 63 ∨ c.toNat = 35 := by
  simp only [netlocStop, Bool.or_eq_true, decide_eq_true_eq,
    char_eq_iff_toNat]
  have h1 : ('/').toNat = 47 := by decide
  have h2 : ('?').toNat = 63 := by decide
  have h3 : ('#').toNat = 35 := by decide
  rw [h1, h2, h3]
  omega

/-- netSafe characters are not whitespace, stops or brackets. -/
theorem netSafe_props (c : Char) (h : netSafe c = true) :
    tabCrLf c = false ∧ netlocStop c = false ∧ c0OrSpace c = false ∧
    c.toNat ≠ 91 ∧ c.toNat ≠ 93 := by
  have hn := (netSafe_iff c).mp h
  refine ⟨?_, ?_, ?_, by omega, by omega⟩
  · cases ht : tabCrLf c
    · rfl
    · have := (tabCrLf_iff c).mp ht
      omega
  · cases ht : netlocStop c
    · rfl
    · have := (netlocStop_iff c).mp ht
      omega
  · cases ht : c0OrSpace c
    · rfl
    · have : c.toNat ≤ 32 := by
        simpa [c0OrSpace, decide_eq_true_eq] using ht
      omega

/-- Decomposition of a successful case-insensitive literal match. -/
theorem consumeLitCI_decomp (pat cs r : List Char)
    (h : consumeLitCI pat cs = some r) :
    ∃ pre, cs = pre ++ r ∧
      List.Forall₂ (fun p c => Char.toLower c = p) pat pre := by
  induction pat generalizing cs with
  | nil =>
    refine ⟨[], ?_, List.Forall₂.nil⟩
    simpa [consumeLitCI] using Option.some_inj.mp h
  | cons p ps ih =>
    cases cs with
    | nil => simp [consumeLitCI] at h
    | cons c cs2 =>
      simp only [consumeLitCI] at h
      by_cases hc : Char.toLower c = p
      · rw [if_pos hc] at h
        obtain ⟨pre, hpre, hf⟩ := ih cs2 h
        exact ⟨c :: pre, by simp [hpre], List.Forall₂.cons hc hf⟩
      · rw [if_neg hc] at h
        cases h

/-- Members of prefixSplits split the input. -/
theorem prefixSplits_decomp {n : Nat} {cs : List Char}
    {pr : List Char × List Char} (h : pr ∈ prefixSplits n cs) :
    cs = pr.1 ++ pr.2 := by
  obtain ⟨k, _, hk⟩ := List.mem_map.mp h
  rw [← hk]
  simp

/-- Generic decomposition for the prefix-then-filter pattern of the
matcher. -/
theorem prefixSplits_filterMap_decomp {n : Nat} {cs r : List Char}
    {p : List Char → Bool}
    (h : r ∈ (prefixSplits n cs).filterMap
      (fun pr => if p pr.1 then some pr.2 else none)) :
    ∃ pre, cs = pre ++ r ∧ p pre = true := by
  obtain ⟨pr, hmem, hcond⟩ := List.mem_filterMap.mp h
  by_cases hp : p pr.1
  · rw [if_pos hp] at hcond
    have hr : pr.2 = r := Option.some_inj.mp hcond
    refine ⟨pr.1, ?_, hp⟩
    rw [← hr]
    exact prefixSplits_decomp hmem
  · rw [if_neg hp] at hcond
    cases hcond

/-- Composing consumption decompositions through flatMap. -/
theorem flatMap_decomp {A : List (List Char)} {cs : List Char}
    {g : List Char → List (List Char)} {q : Char → Bool}
    (hA : ∀ r ∈ A, ∃ pre, cs = pre ++ r ∧ pre.all q = true)
    (hg : ∀ (m r : List Char), r ∈ g m →
      ∃ pre, m = pre ++ r ∧ pre.all q = true) :
    ∀ r ∈ A.flatMap g, ∃ pre, cs = pre ++ r ∧ pre.all q = true := by
  intro r hr
  obtain ⟨m, hm, hrg⟩ := List.mem_flatMap.mp hr
  obtain ⟨pre1, hpre1, hall1⟩ := hA m hm
  obtain ⟨pre2, hpre2, hall2⟩ := hg m r hrg
  refine ⟨pre1 ++ pre2, ?_, ?_⟩
  · rw [hpre1, hpre2, List.append_assoc]
  · rw [List.all_append, hall1, hall2]
    rfl

/-- Alphanumeric-dash characters are netSafe. -/
theorem netSafe_of_alnumDash (c : Char) (h : isAlnumDash c = true) :
    netSafe c = true := by
  simp [netSafe, h]

/-- Letters are netSafe. -/
theorem netSafe_of_alpha (c : Char) (h : isAsciiAlpha c = true) :
    netSafe c = true := by
  simp [netSafe, isAlnumDash, isAlnum, h]

/-- Digits are netSafe. -/
theorem netSafe_of_digit (c : Char) (h : isAsciiDigit c = true) :
    netSafe c = true := by
  simp [netSafe, isAlnumDash, isAlnum, h]

/-- A valid label consists of alphanumeric-dash characters. -/
theorem validLabel_all (l : List Char) (h : validLabel l = true) :
    l.all isAlnumDash = true := by
  cases l with
  | nil => simp [validLabel] at h
  | cons c rest =>
    simp only [validLabel, Bool.and_eq_true] at h
    exact h.2

/-- Characters matched case-insensitively against lowercase letters are
netSafe. -/
theorem all_netSafe_of_forall₂_lower (pat pre : List Char)
    (hf : List.Forall₂ (fun p c => Char.toLower c = p) pat pre)
    (hpat : pat.all isAsciiLower = true) : pre.all netSafe = true := by
  induction hf with
  | nil => rfl
  | @cons a b as bs h1 _ ih =>
    rw [List.all_cons, Bool.and_eq_true] at hpat ⊢
    refine ⟨?_, ih hpat.2⟩
    rcases toLower_toNat_cases b a h1 with rfl | ⟨hb1, hb2, _⟩
    · exact netSafe_of_alpha b (by simp [isAsciiAlpha, hpat.1])
    · exact (netSafe_iff b).mpr (Or.inl ⟨hb1, hb2⟩)

/-- Decomposition of a label-dot group. -/
theorem labelDotRemainders_decomp (cs r : List Char)
    (h : r ∈ labelDotRemainders cs) :
    ∃ pre, cs = pre ++ r ∧ pre.all netSafe = true := by
  obtain ⟨pr, hmem, hcond⟩ := List.mem_filterMap.mp h
  cases hp2 : pr.2 with
  | nil => rw [hp2] at hcond; exact absurd hcond (by simp)
  | cons c t =>
    rw [hp2] at hcond
    replace hcond : (if validLabel pr.1 = true ∧ c = '.' then some t
        else none) = some r := hcond
    by_cases hc : validLabel pr.1 = true ∧ c = '.'
    · rw [if_pos hc] at hcond
      have ht : t = r := Option.some_inj.mp hcond
      have hcs := prefixSplits_decomp hmem
      obtain ⟨hv, rfl⟩ := hc
      have h1 : ∀ x ∈ pr.1, netSafe x = true := by
        intro x hx
        exact netSafe_of_alnumDash x
          (List.all_eq_true.mp (validLabel_all pr.1 hv) x hx)
      refine ⟨pr.1 ++ ['.'], ?_, ?_⟩
      · rw [hcs, hp2, ht]
        simp
      · simp [List.all_append, List.all_eq_true.mpr h1,
          (by decide : netSafe ('.') = true)]
    · rw [if_neg hc] at hcond
      cases hcond

/-- Decomposition of one or more label-dot groups. -/
theorem labelDotPlusAux_decomp (fuel : Nat) :
    ∀ (cs r : List Char), r ∈ labelDotPlusAux fuel cs →
      ∃ pre, cs = pre ++ r ∧ pre.all netSafe = true := by
  induction fuel with
  | zero => intro cs r h; simp [labelDotPlusAux] at h
  | succ n ih =>
    intro cs r h
    simp only [labelDotPlusAux] at h
    rw [List.mem_append] at h
    rcases h with h | h
    · exact labelDotRemainders_decomp cs r h
    · exact flatMap_decomp (fun m hm => labelDotRemainders_decomp cs m hm)
        (fun m r2 hr => ih m r2 hr) r h

/-- Decomposition of the TLD alternative. -/
theorem tldRemainders_decomp (cs r : List Char) (h : r ∈ tldRemainders cs) :
    ∃ pre, cs = pre ++ r ∧ pre.all netSafe = true := by
  simp only [tldRemainders] at h
  refine flatMap_decomp ?_ ?_ r h
  · intro m hm
    rw [List.mem_append] at hm
    rcases hm with hm | hm
    · obtain ⟨pre, hpre, hp⟩ := prefixSplits_filterMap_decomp
        (p := fun l => decide (2 ≤ l.length) && l.all isAsciiAlpha) hm
      rw [Bool.and_eq_true] at hp
      refine ⟨pre, hpre, ?_⟩
      exact List.all_eq_true.mpr (fun x hx =>
        netSafe_of_alpha x (List.all_eq_true.mp hp.2 x hx))
    · obtain ⟨pre, hpre, hp⟩ := prefixSplits_filterMap_decomp
        (p := fun l => decide (2 ≤ l.length) && l.all isAlnumDash) hm
      rw [Bool.and_eq_true] at hp
      refine ⟨pre, hpre, ?_⟩
      exact List.all_eq_true.mpr (fun x hx =>
        netSafe_of_alnumDash x (List.all_eq_true.mp hp.2 x hx))
  · intro m r2 hr2
    cases m with
    | nil =>
      simp at hr2
      exact ⟨[], by simp [hr2], rfl⟩
    | cons c t =>
      by_cases hc : c = '.'
      · subst hc
        simp at hr2
        rcases hr2 with rfl | rfl
        · exact ⟨[], rfl, rfl⟩
        · exact ⟨['.'], rfl, by decide⟩
      · simp [hc] at hr2
        exact ⟨[], by simp [hr2], rfl⟩

/-- Decomposition of one IPv4 component. -/
theorem ipPart_decomp (cs r : List Char) (h : r ∈ ipPartRemainders cs) :
    ∃ pre, cs = pre ++ r ∧ pre.all netSafe = true := by
  obtain ⟨pre, hpre, hp⟩ := prefixSplits_filterMap_decomp
    (p := fun l => l.all isAsciiDigit) h
  refine ⟨pre, hpre, ?_⟩
  exact List.all_eq_true.mpr (fun x hx =>
    netSafe_of_digit x (List.all_eq_true.mp hp x hx))

/-- Decomposition of the literal dot. -/
theorem dotRemainders_decomp (cs r : List Char) (h : r ∈ dotRemainders cs) :
    ∃ pre, cs = pre ++ r ∧ pre.all netSafe = true := by
  cases cs with
  | nil => simp [dotRemainders] at h
  | cons c t =>
    by_cases hc : c = '.'
    · subst hc
      simp [dotRemainders] at h
      exact ⟨['.'], by simp [h], by decide⟩
    · simp [dotRemainders, hc] at h

/-- Decomposition of the dotted-quad alternative. -/
theorem ipv4Remainders_decomp (cs r : List Char)
    (h : r ∈ ipv4Remainders cs) :
    ∃ pre, cs = pre ++ r ∧ pre.all netSafe = true := by
  unfold ipv4Remainders at h
  refine flatMap_decomp (flatMap_decomp (flatMap_decomp (flatMap_decomp
    (flatMap_decomp (flatMap_decomp (fun m hm => ipPart_decomp cs m hm)
      dotRemainders_decomp) ipPart_decomp) dotRemainders_decomp)
      ipPart_decomp) dotRemainders_decomp) ipPart_decomp r h

/-- Decomposition of the host alternative. -/
theorem hostRemainders_decomp (cs r : List Char)
    (h : r ∈ hostRemainders cs) :
    ∃ pre, cs = pre ++ r ∧ pre.all netSafe = true := by
  unfold hostRemainders at h
  rw [List.mem_append, List.mem_append] at h
  rcases h with (h | h) | h
  · exact flatMap_decomp
      (fun m hm => labelDotPlusAux_decomp (cs.length + 1) cs m hm)
      tldRemainders_decomp r h
  · rw [Option.mem_toList, Option.mem_def] at h
    obtain ⟨pre, hpre, hf⟩ := consumeLitCI_decomp _ _ _ h
    exact ⟨pre, hpre, all_netSafe_of_forall₂_lower _ pre hf (by decide)⟩
  · exact ipv4Remainders_decomp cs r h

/-- Decomposition of the optional port. -/
theorem portRemainders_decomp (cs r : List Char)
    (h : r ∈ portRemainders cs) :
    ∃ pre, cs = pre ++ r ∧ pre.all netSafe = true := by
  unfold portRemainders at h
  rw [List.mem_cons] at h
  rcases h with rfl | h
  · exact ⟨[], rfl, rfl⟩
  · cases cs with
    | nil => simp at h
    | cons c r2 =>
      replace h : r ∈ (if c = ':' then
          (prefixSplits r2.length r2).filterMap
            (fun pr => if pr.1.all isAsciiDigit then some pr.2 else none)
          else []) := h
      by_cases hc : c = ':'
      · subst hc
        rw [if_pos rfl] at h
        obtain ⟨pre, hpre, hp⟩ := prefixSplits_filterMap_decomp
          (p := fun l => l.all isAsciiDigit) h
        refine ⟨':' :: pre, by simp [hpre], ?_⟩
        rw [List.all_cons, Bool.and_eq_true]
        exact ⟨by decide, List.all_eq_true.mpr (fun x hx =>
          netSafe_of_digit x (List.all_eq_true.mp hp x hx))⟩
      · rw [if_neg hc] at h
        simp at h

/-- Decomposition of the host, port and tail part of a matched URL. -/
theorem host_port_tail_decomp (r : List Char)
    (h : (hostRemainders r).any
      (fun hr => (portRemainders hr).any tailOk) = true) :
    ∃ hp tl, r = hp ++ tl ∧ hp.all netSafe = true ∧ tailOk tl = true := by
  obtain ⟨hr, hhr, hany⟩ := List.any_eq_true.mp h
  obtain ⟨pr, hpr, htail⟩ := List.any_eq_true.mp hany
  obtain ⟨pre1, hpre1, hall1⟩ := hostRemainders_decomp r hr hhr
  obtain ⟨pre2, hpre2, hall2⟩ := portRemainders_decomp hr pr hpr
  refine ⟨pre1 ++ pre2, pr, ?_, ?_, htail⟩
  · rw [hpre1, hpre2, List.append_assoc]
  · rw [List.all_append, hall1, hall2]
    rfl

/-- Full decomposition of a URL accepted by the absolute pattern: a
case-insensitive scheme literal, a netSafe host-port block, and a valid
tail. -/
theorem matchesAbsolute_decomp (s : String) (h : matchesAbsolute s = true) :
    ∃ sch hp tl, s.toList = sch ++ hp ++ tl ∧
      (List.Forall₂ (fun p c => Char.toLower c = p) "http://".toList sch ∨
       List.Forall₂ (fun p c => Char.toLower c = p) "https://".toList sch) ∧
      hp.all netSafe = true ∧ tailOk tl = true := by
  unfold matchesAbsolute matchesAbsoluteL at h
  cases h1 : consumeLitCI "http://".toList s.toList with
  | some r =>
    rw [h1] at h
    simp only [Option.orElse] at h
    obtain ⟨hp, tl, hr, hall, htail⟩ := host_port_tail_decomp r h
    obtain ⟨sch, hs, hf⟩ := consumeLitCI_decomp _ _ _ h1
    exact ⟨sch, hp, tl, by rw [hs, hr, List.append_assoc], Or.inl hf,
      hall, htail⟩
  | none =>
    rw [h1] at h
    simp only [Option.orElse] at h
    cases h2 : consumeLitCI "https://".toList s.toList with
    | some r =>
      rw [h2] at h
      obtain ⟨hp, tl, hr, hall, htail⟩ := host_port_tail_decomp r h
      obtain ⟨sch, hs, hf⟩ := consumeLitCI_decomp _ _ _ h2
      exact ⟨sch, hp, tl, by rw [hs, hr, List.append_assoc], Or.inr hf,
        hall, htail⟩
    | none =>
      rw [h2] at h
      cases h

/-- A character whose lowercase form is a symbol below the lowercase
range is that symbol itself. -/
theorem eq_of_toLower_symbol (c p : Char) (h : Char.toLower c = p)
    (hp : p.toNat < 97 ∨ 122 < p.toNat) : c = p := by
  rcases toLower_toNat_cases c p h with rfl | ⟨h1, h2, h3⟩
  · rfl
  · omega

/-- Facts about a character whose lowercase form is a lowercase letter. -/
theorem letter_facts (c p : Char) (h : Char.toLower c = p)
    (hp : 97 ≤ p.toNat ∧ p.toNat ≤ 122) :
    isAsciiAlpha c = true ∧ c ≠ ':' ∧ tabCrLf c = false ∧
    c0OrSpace c = false := by
  have hb : (97 ≤ c.toNat ∧ c.toNat ≤ 122) ∨
      (65 ≤ c.toNat ∧ c.toNat ≤ 90) := by
    rcases toLower_toNat_cases c p h with rfl | ⟨h1, h2, _⟩
    · exact Or.inl hp
    · exact Or.inr ⟨h1, h2⟩
  refine ⟨?_, ?_, ?_, ?_⟩
  · simp only [isAsciiAlpha, isAsciiUpper, isAsciiLower, Bool.or_eq_true,
      Bool.and_eq_true, decide_eq_true_eq]
    omega
  · intro he
    rw [char_eq_iff_toNat] at he
    have : (':').toNat = 58 := by decide
    omega
  · cases ht : tabCrLf c
    · rfl
    · have := (tabCrLf_iff c).mp ht
      omega
  · cases ht : c0OrSpace c
    · rfl
    · have : c.toNat ≤ 32 := by
        simpa [c0OrSpace, decide_eq_true_eq] using ht
      omega

/-- Inversion of the case-insensitive http:// prefix. -/
theorem sch_http_decomp (sch : List Char)
    (hf : List.Forall₂ (fun p c => Char.toLower c = p) "http://".toList
      sch) :
    ∃ L, sch = L ++ [':', '/', '/'] ∧
      L.map Char.toLower = ['h', 't', 't', 'p'] ∧ L ≠ [] ∧
      ∀ x ∈ L, isAsciiAlpha x = true ∧ x ≠ ':' ∧ tabCrLf x = false ∧
        c0OrSpace x = false := by
  have hpat : "http://".toList = ['h', 't', 't', 'p', ':', '/', '/'] := rfl
  rw [hpat] at hf
  rcases hf with _ | ⟨h0, hf⟩
  rcases hf with _ | ⟨h1, hf⟩
  rcases hf with _ | ⟨h2, hf⟩
  rcases hf with _ | ⟨h3, hf⟩
  rcases hf with _ | ⟨h4, hf⟩
  rcases hf with _ | ⟨h5, hf⟩
  rcases hf with _ | ⟨h6, hf⟩
  rcases hf with _ | _
  rename_i b0 b1 b2 b3 b4 b5 b6
  have e4 : b4 = ':' := eq_of_toLower_symbol _ _ h4 (by decide)
  have e5 : b5 = '/' := eq_of_toLower_symbol _ _ h5 (by decide)
  have e6 : b6 = '/' := eq_of_toLower_symbol _ _ h6 (by decide)
  refine ⟨[b0, b1, b2, b3], by simp [e4, e5, e6], by simp [h0, h1, h2, h3],
    by simp, ?_⟩
  intro x hx
  have f0 := letter_facts b0 _ h0 (by decide)
  have f1 := letter_facts b1 _ h1 (by decide)
  have f2 := letter_facts b2 _ h2 (by decide)
  have f3 := letter_facts b3 _ h3 (by decide)
  simp only [List.mem_cons, List.not_mem_nil, or_false] at hx
  rcases hx with rfl | rfl | rfl | rfl
  exacts [f0, f1, f2, f3]

/-- Inversion of the case-insensitive https:// prefix. -/
theorem sch_https_decomp (sch : List Char)
    (hf : List.Forall₂ (fun p c => Char.toLower c = p) "https://".toList
      sch) :
    ∃ L, sch = L ++ [':', '/', '/'] ∧
      L.map Char.toLower = ['h', 't', 't', 'p', 's'] ∧ L ≠ [] ∧
      ∀ x ∈ L, isAsciiAlpha x = true ∧ x ≠ ':' ∧ tabCrLf x = false ∧
        c0OrSpace x = false := by
  have hpat : "https://".toList = ['h', 't', 't', 'p', 's', ':', '/', '/'] :=
    rfl
  rw [hpat] at hf
  rcases hf with _ | ⟨h0, hf⟩
  rcases hf with _ | ⟨h1, hf⟩
  rcases hf with _ | ⟨h2, hf⟩
  rcases hf with _ | ⟨h3, hf⟩
  rcases hf with _ | ⟨hs, hf⟩
  rcases hf with _ | ⟨h4, hf⟩
  rcases hf with _ | ⟨h5, hf⟩
  rcases hf with _ | ⟨h6, hf⟩
  rcases hf with _ | _
  rename_i b0 b1 b2 b3 bs b4 b5 b6
  have e4 : b4 = ':' := eq_of_toLower_symbol _ _ h4 (by decide)
  have e5 : b5 = '/' := eq_of_toLower_symbol _ _ h5 (by decide)
  have e6 : b6 = '/' := eq_of_toLower_symbol _ _ h6 (by decide)
  refine ⟨[b0, b1, b2, b3, bs], by simp [e4, e5, e6],
    by simp [h0, h1, h2, h3, hs], by simp, ?_⟩
  intro x hx
  have f0 := letter_facts b0 _ h0 (by decide)
  have f1 := letter_facts b1 _ h1 (by decide)
  have f2 := letter_facts b2 _ h2 (by decide)
  have f3 := letter_facts b3 _ h3 (by decide)
  have fs := letter_facts bs _ hs (by decide)
  simp only [List.mem_cons, List.not_mem_nil, or_false] at hx
  rcases hx with rfl | rfl | rfl | rfl | rfl
  exacts [f0, f1, f2, f3, fs]

/-- Inversion of the end-anchor test. -/
theorem endOk_inv (cs : List Char) (h : endOk cs = true) :
    cs = [] ∨ cs = ['\n'] := by
  cases cs with
  | nil => exact Or.inl rfl
  | cons c rest =>
    cases rest with
    | nil =>
      have hc : c = '\n' := by simpa [endOk] using h
      exact Or.inr (by rw [hc])
    | cons d t => simp [endOk] at h

/-- The filtered form of a valid tail: empty or led by a slash or question
mark. -/
theorem tail_filter_shape (tl : List Char) (h : tailOk tl = true) :
    tl.filter (fun c => !tabCrLf c) = [] ∨
    ∃ t', tl.filter (fun c => !tabCrLf c) = '/' :: t' ∨
      tl.filter (fun c => !tabCrLf c) = '?' :: t' := by
  rw [tailOk.eq_def, Bool.or_eq_true] at h
  rcases h with h | h
  · left
    rcases endOk_inv tl h with rfl | rfl
    · rfl
    · rfl
  · cases tl with
    | nil => simp at h
    | cons c rest =>
      rw [Bool.or_eq_true] at h
      rcases h with h | h
      · rw [Bool.and_eq_true] at h
        have hc : c = '/' := by simpa using h.1
        subst hc
        rcases endOk_inv rest h.2 with rfl | rfl
        · exact Or.inr ⟨[], Or.inl rfl⟩
        · exact Or.inr ⟨[], Or.inl rfl⟩
      · rw [Bool.and_eq_true] at h
        have hc : c = '/' ∨ c = '?' := by
          have := h.1
          rw [Bool.or_eq_true] at this
          simpa using this
        rcases hc with rfl | rfl
        · refine Or.inr ⟨rest.filter (fun c => !tabCrLf c), Or.inl ?_⟩
          simp [List.filter_cons]
          decide
        · refine Or.inr ⟨rest.filter (fun c => !tabCrLf c), Or.inr ?_⟩
          simp [List.filter_cons]
          decide

/-- Letters are valid scheme characters. -/
theorem isSchemeChar_of_alpha (c : Char) (h : isAsciiAlpha c = true) :
    isSchemeChar c = true := by
  simp [isSchemeChar, h]

/-- Evaluation of the urlsplit core on input of the shape
scheme colon slash slash rest. -/
theorem pyUrlsplitCore_compute (letters w : List Char)
    (hne : letters ≠ [])
    (hfacts : ∀ x ∈ letters, isAsciiAlpha x = true ∧ x ≠ ':') :
    (pyUrlsplitCore (letters ++ ':' :: '/' :: '/' :: w)).scheme =
      String.mk (letters.map Char.toLower) ∧
    (pyUrlsplitCore (letters ++ ':' :: '/' :: '/' :: w)).netloc =
      String.mk (w.takeWhile (fun c => !netlocStop c)) := by
  have hsf : splitFirst ':' (letters ++ ':' :: '/' :: '/' :: w) =
      some (letters, '/' :: '/' :: w) :=
    splitFirst_append ':' letters ('/' :: '/' :: w)
      (fun hm => (hfacts _ hm).2 rfl)
  cases letters with
  | nil => exact absurd rfl hne
  | cons c0 crest =>
    have hc0 : isAsciiAlpha c0 = true :=
      (hfacts c0 (List.mem_cons_self c0 crest)).1
    have hcrest : ∀ x ∈ crest, isSchemeChar x = true := fun x hx =>
      isSchemeChar_of_alpha x (hfacts x (List.mem_cons_of_mem c0 hx)).1
    have hcond : (isAsciiAlpha c0 && crest.all isSchemeChar) = true := by
      rw [Bool.and_eq_true]
      exact ⟨hc0, List.all_eq_true.mpr hcrest⟩
    constructor
    · simp only [pyUrlsplitCore, schemeSplitF, hsf]
      rw [if_pos hcond]
    · simp only [pyUrlsplitCore, schemeSplitF, hsf]
      rw [if_pos hcond]
      simp [netlocSplitF]

/-- Preprocessing leaves the scheme, authority and separators of a matched
URL untouched and filters only the tail. -/
theorem preprocess_assembled (L hp tl : List Char)
    (hL : ∀ x ∈ L, tabCrLf x = false ∧ c0OrSpace x = false)
    (hne : L ≠ []) (hp_ns : hp.all netSafe = true) :
    preprocessUrl (L ++ ':' :: '/' :: '/' :: (hp ++ tl)) =
      L ++ ':' :: '/' :: '/' :: (hp ++ tl.filter (fun c => !tabCrLf c)) := by
  unfold preprocessUrl
  cases L with
  | nil => exact absurd rfl hne
  | cons c0 crest =>
    have hdw : ((c0 :: crest ++ ':' :: '/' :: '/' :: (hp ++ tl)).dropWhile
        c0OrSpace) = c0 :: crest ++ ':' :: '/' :: '/' :: (hp ++ tl) := by
      rw [List.cons_append, List.dropWhile_cons,
        (hL c0 (List.mem_cons_self c0 crest)).2]
      simp
    rw [hdw]
    have h1 : (c0 :: crest).filter (fun c => !tabCrLf c) = c0 :: crest :=
      List.filter_eq_self.mpr (fun a ha => by simp [(hL a ha).1])
    have h2 : hp.filter (fun c => !tabCrLf c) = hp :=
      List.filter_eq_self.mpr (fun a ha => by
        simp [(netSafe_props a (List.all_eq_true.mp hp_ns a ha)).1])
    rw [show c0 :: crest ++ ':' :: '/' :: '/' :: (hp ++ tl) =
      (c0 :: crest) ++ ([':', '/', '/'] ++ (hp ++ tl)) by simp]
    rw [List.filter_append, List.filter_append, List.filter_append, h1, h2]
    simp [List.filter_cons, (by decide : tabCrLf (':') = false),
      (by decide : tabCrLf ('/') = false)]

/-- The scheme and netloc of a URL accepted by the absolute pattern: the
scheme is http or https and the netloc consists of netSafe characters. -/
theorem pyUrlsplit_of_matches (s : String) (h : matchesAbsolute s = true) :
    ∃ hp : List Char, hp.all netSafe = true ∧
      (pyUrlsplit s).netloc = String.mk hp ∧
      ((pyUrlsplit s).scheme = "http" ∨ (pyUrlsplit s).scheme = "https") := by
  obtain ⟨sch, hp, tl, hsplit, hsch, hall, htail⟩ := matchesAbsolute_decomp s h
  have hstop : ∀ a ∈ hp, (!netlocStop a) = true := fun a ha => by
    simp [(netSafe_props a (List.all_eq_true.mp hall a ha)).2.1]
  have htw : (hp ++ tl.filter (fun c => !tabCrLf c)).takeWhile
      (fun c => !netlocStop c) = hp := by
    rw [takeWhile_append_all _ _ hstop]
    rcases tail_filter_shape tl htail with he | ⟨t', ht' | ht'⟩
    · rw [he]
      simp
    · rw [ht', List.takeWhile_cons]
      simp [(by decide : netlocStop ('/') = true)]
    · rw [ht', List.takeWhile_cons]
      simp [(by decide : netlocStop ('?') = true)]
  rcases hsch with hf | hf
  · obtain ⟨L, hsch_eq, hmap, hne, hfacts⟩ := sch_http_decomp sch hf
    have hs2 : s.toList = L ++ ':' :: '/' :: '/' :: (hp ++ tl) := by
      rw [hsplit, hsch_eq]
      simp
    have hLf : ∀ x ∈ L, tabCrLf x = false ∧ c0OrSpace x = false :=
      fun x hx => ⟨(hfacts x hx).2.2.1, (hfacts x hx).2.2.2⟩
    have hpre : preprocessUrl s.toList =
        L ++ ':' :: '/' :: '/' :: (hp ++ tl.filter (fun c => !tabCrLf c)) := by
      rw [hs2]
      exact preprocess_assembled L hp tl hLf hne hall
    have hcc := pyUrlsplitCore_compute L
      (hp ++ tl.filter (fun c => !tabCrLf c)) hne
      (fun x hx => ⟨(hfacts x hx).1, (hfacts x hx).2.1⟩)
    refine ⟨hp, hall, ?_, Or.inl ?_⟩
    · show (pyUrlsplitCore (preprocessUrl s.toList)).netloc = _
      rw [hpre, hcc.2, htw]
    · show (pyUrlsplitCore (preprocessUrl s.toList)).scheme = _
      rw [hpre, hcc.1, hmap]
  · obtain ⟨L, hsch_eq, hmap, hne, hfacts⟩ := sch_https_decomp sch hf
    have hs2 : s.toList = L ++ ':' :: '/' :: '/' :: (hp ++ tl) := by
      rw [hsplit, hsch_eq]
      simp
    have hLf : ∀ x ∈ L, tabCrLf x = false ∧ c0OrSpace x = false :=
      fun x hx => ⟨(hfacts x hx).2.2.1, (hfacts x hx).2.2.2⟩
    have hpre : preprocessUrl s.toList =
        L ++ ':' :: '/' :: '/' :: (hp ++ tl.filter (fun c => !tabCrLf c)) := by
      rw [hs2]
      exact preprocess_assembled L hp tl hLf hne hall
    have hcc := pyUrlsplitCore_compute L
      (hp ++ tl.filter (fun c => !tabCrLf c)) hne
      (fun x hx => ⟨(hfacts x hx).1, (hfacts x hx).2.1⟩)
    refine ⟨hp, hall, ?_, Or.inr ?_⟩
    · show (pyUrlsplitCore (preprocessUrl s.toList)).netloc = _
      rw [hpre, hcc.2, htw]
    · show (pyUrlsplitCore (preprocessUrl s.toList)).scheme = _
      rw [hpre, hcc.1, hmap]

/-- urlparse does not raise on URLs accepted by the absolute pattern. -/
theorem urlsplitRaises_false_of_matches (s : String)
    (h : matchesAbsolute s = true) : urlsplitRaises s = false := by
  obtain ⟨hp, hall, hnet, _⟩ := pyUrlsplit_of_matches s h
  show ((pyUrlsplit s).netloc.toList.any (fun c => c = '[') ||
    (pyUrlsplit s).netloc.toList.any (fun c => c = ']')) = false
  rw [hnet]
  have hl : (String.mk hp).toList = hp := rfl
  rw [hl]
  have h1 : hp.any (fun c => c = '[') = false := by
    cases hx : hp.any (fun c => c = '[') with
    | false => rfl
    | true =>
      obtain ⟨c, hc, he⟩ := List.any_eq_true.mp hx
      have he2 : c = '[' := by simpa using he
      have := (netSafe_props c (List.all_eq_true.mp hall c hc)).2.2.2.1
      rw [he2] at this
      exact absurd (by decide) this
  have h2 : hp.any (fun c => c = ']') = false := by
    cases hx : hp.any (fun c => c = ']') with
    | false => rfl
    | true =>
      obtain ⟨c, hc, he⟩ := List.any_eq_true.mp hx
      have he2 : c = ']' := by simpa using he
      have := (netSafe_props c (List.all_eq_true.mp hall c hc)).2.2.2.2
      rw [he2] at this
      exact absurd (by decide) this
  rw [h1, h2]
  rfl

/-- The netloc component is a sublist of what follows the double slash. -/
theorem netlocSplitF_fst_sublist (rest : List Char) :
    (netlocSplitF rest).1.Sublist rest := by
  unfold netlocSplitF
  cases rest with
  | nil => exact List.nil_sublist _
  | cons a t =>
    cases t with
    | nil => exact List.nil_sublist _
    | cons b r =>
      dsimp only
      by_cases hab : a = '/' ∧ b = '/'
      · rw [if_pos hab]
        exact (List.takeWhile_sublist _).trans
          ((List.sublist_cons_self b r).trans
            (List.sublist_cons_self a (b :: r)))
      · rw [if_neg hab]
        exact List.nil_sublist _

/-- The part after the scheme is a sublist of the input. -/
theorem schemeSplitF_snd_sublist (cs : List Char) :
    (schemeSplitF cs).2.Sublist cs := by
  unfold schemeSplitF
  cases hsf : splitFirst ':' cs with
  | none => exact List.Sublist.refl cs
  | some pr =>
    obtain ⟨pre, post⟩ := pr
    cases pre with
    | nil => exact List.Sublist.refl cs
    | cons c0 crest =>
      dsimp only
      by_cases hc : (isAsciiAlpha c0 && crest.all isSchemeChar) = true
      · rw [if_pos hc]
        have heq := splitFirst_eq ':' cs (c0 :: crest) post hsf
        rw [heq]
        exact (List.sublist_cons_self ':' post).trans
          (List.sublist_append_right _ _)
      · rw [if_neg hc]

/-- Every character of the netloc occurs in the original URL string. -/
theorem pyUrlsplit_netloc_subset (s : String) :
    ∀ x ∈ (pyUrlsplit s).netloc.toList, x ∈ s.toList := by
  intro x hx
  have h1 : (pyUrlsplit s).netloc.toList =
      (netlocSplitF (schemeSplitF (preprocessUrl s.toList)).2).1 := rfl
  rw [h1] at hx
  have s1 := netlocSplitF_fst_sublist (schemeSplitF (preprocessUrl s.toList)).2
  have s2 := schemeSplitF_snd_sublist (preprocessUrl s.toList)
  have s3 : (preprocessUrl s.toList).Sublist s.toList :=
    (List.filter_sublist _).trans (List.dropWhile_sublist _)
  exact List.Sublist.mem hx ((s1.trans s2).trans s3)

/-- urlparse does not raise on bracket-free URLs. -/
theorem urlsplitRaises_false_of_no_brackets (s : String)
    (h : ∀ x ∈ s.toList, x ≠ '[' ∧ x ≠ ']') : urlsplitRaises s = false := by
  show ((pyUrlsplit s).netloc.toList.any (fun c => c = '[') ||
    (pyUrlsplit s).netloc.toList.any (fun c => c = ']')) = false
  have h1 : (pyUrlsplit s).netloc.toList.any (fun c => c = '[') = false := by
    cases hx : (pyUrlsplit s).netloc.toList.any (fun c => c = '[') with
    | false => rfl
    | true =>
      obtain ⟨c, hc, he⟩ := List.any_eq_true.mp hx
      have he2 : c = '[' := by simpa using he
      exact absurd he2 (h c (pyUrlsplit_netloc_subset s c hc)).1
  have h2 : (pyUrlsplit s).netloc.toList.any (fun c => c = ']') = false := by
    cases hx : (pyUrlsplit s).netloc.toList.any (fun c => c = ']') with
    | false => rfl
    | true =>
      obtain ⟨c, hc, he⟩ := List.any_eq_true.mp hx
      have he2 : c = ']' := by simpa using he
      exact absurd he2 (h c (pyUrlsplit_netloc_subset s c hc)).2
  rw [h1, h2]
  rfl

/-- The result of stripFragment contains no hash character. -/
theorem stripFragment_no_hash (s : String) :
    ∀ x ∈ (stripFragment s).toList, x ≠ '#' := by
  intro x hx
  have hx2 : x ∈ s.toList.takeWhile (fun ch => ch ≠ '#') := hx
  have := List.mem_takeWhile_imp hx2
  simpa using this

/-- Every character of stripFragment s occurs in s. -/
theorem stripFragment_subset (s : String) :
    ∀ x ∈ (stripFragment s).toList, x ∈ s.toList := by
  intro x hx
  have hx2 : x ∈ s.toList.takeWhile (fun ch => ch ≠ '#') := hx
  exact List.Sublist.mem hx2 (List.takeWhile_sublist _)

/-- stripFragment fixes hash-free strings. -/
theorem stripFragment_of_no_hash (c : String)
    (h : ∀ x ∈ c.toList, x ≠ '#') : stripFragment c = c := by
  unfold stripFragment
  have ht : c.toList.takeWhile (fun ch => ch ≠ '#') = c.toList :=
    List.takeWhile_eq_self_iff.mpr (fun a ha => by simpa using h a ha)
  rw [ht]
  rfl

/-- A canonical URL produced by URLData.__init__ matches the absolute
pattern and contains no fragment separator. -/
theorem urldataInit_valid (u : String) (p : Option String) (c : String)
    (h : urldataInit u p = .ok (some c)) :
    matchesAbsolute c = true ∧ ∀ x ∈ c.toList, x ≠ '#' := by
  unfold urldataInit at h
  by_cases h1 : urlsplitRaises (stripFragment u)
  · rw [if_pos h1] at h
    simp at h
  · rw [if_neg h1] at h
    by_cases h2 : matchesAbsolute (stripFragment u)
    · rw [if_pos h2] at h
      have hc : stripFragment u = c := by simpa using h
      subst hc
      exact ⟨h2, stripFragment_no_hash u⟩
    · rw [if_neg h2] at h
      by_cases h3 : (pyUrlsplit (stripFragment u)).scheme ≠ ""
      · rw [if_pos h3] at h
        simp at h
      · rw [if_neg h3] at h
        cases p with
        | none => simp at h
        | some ps =>
          dsimp only at h
          by_cases h4 : ¬ matchesAbsolute ps
          · rw [if_pos h4] at h
            simp at h
          · rw [if_neg h4] at h
            by_cases h5 : u = "" ∨ strStarts u "#"
            · rw [if_pos h5] at h
              simp at h
            · rw [if_neg h5] at h
              by_cases h6 :
                  ¬ matchesAbsolute (stripFragment (resolveRelative u ps))
              · rw [if_pos h6] at h
                simp at h
              · rw [if_neg h6] at h
                by_cases h7 :
                    urlsplitRaises (stripFragment (resolveRelative u ps))
                · rw [if_pos h7] at h
                  simp at h
                · rw [if_neg h7] at h
                  have hc : stripFragment (resolveRelative u ps) = c := by
                    simpa using h
                  have h6' : matchesAbsolute
                      (stripFragment (resolveRelative u ps)) = true :=
                    not_not.mp h6
                  rw [hc] at h6'
                  refine ⟨h6', ?_⟩
                  rw [← hc]
                  exact stripFragment_no_hash (resolveRelative u ps)

/-- Byte-level facts about the MD5 digest. -/
theorem md5Digest_bytes (msg : List Nat) :
    (md5Digest msg).length = 16 ∧ ∀ b ∈ md5Digest msg, b < 256 := by
  unfold md5Digest
  constructor
  · simp [wordLEBytes]
  · intro b hb
    simp [wordLEBytes] at hb
    omega

/-- Each hex digit below 16 renders as a lowercase hex character. -/
theorem hexDigit_isHex (n : Nat) (h : n < 16) :
    isLowerHexDigit (hexDigit n) = true := by
  interval_cases n <;> decide

/-- The MD5 hex digest has 32 characters, all lowercase hex. -/
theorem md5hex_spec (msg : List Nat) :
    (md5hex msg).length = 32 ∧
    ∀ ch ∈ (md5hex msg).toList, isLowerHexDigit ch = true := by
  obtain ⟨hlen, hbytes⟩ := md5Digest_bytes msg
  constructor
  · show ((md5Digest msg).flatMap
      (fun b => [hexDigit (b / 16), hexDigit (b % 16)])).length = 32
    have hgen : ∀ bs : List Nat, (bs.flatMap
        (fun b => [hexDigit (b / 16), hexDigit (b % 16)])).length =
        2 * bs.length := by
      intro bs
      induction bs with
      | nil => rfl
      | cons b t ih =>
        simp only [List.flatMap_cons, List.length_append, ih,
          List.length_cons]
        simp
        omega
    rw [hgen, hlen]
  · intro ch hch
    have hch2 : ch ∈ (md5Digest msg).flatMap
        (fun b => [hexDigit (b / 16), hexDigit (b % 16)]) := hch
    obtain ⟨b, hb, hin⟩ := List.mem_flatMap.mp hch2
    have hb256 := hbytes b hb
    simp at hin
    rcases hin with rfl | rfl
    · exact hexDigit_isHex _ (by omega)
    · exact hexDigit_isHex _ (by omega)

/-! Order properties of Python string comparison, and the canonical query
as a function of the raw-key normal form. -/

theorem charListLe_total : ∀ a b : List Char,
    charListLe a b = true ∨ charListLe b a = true := by
  intro a
  induction a with
  | nil => intro b; left; rfl
  | cons x xs ih =>
    intro b
    cases b with
    | nil => right; rfl
    | cons y ys =>
      by_cases h1 : x.toNat < y.toNat
      · left
        simp [charListLe, h1]
      · by_cases h2 : y.toNat < x.toNat
        · right
          simp [charListLe, h2]
        · rcases ih ys with h | h
          · left
            simp [charListLe, h1, h2, h]
          · right
            simp [charListLe, h1, h2, h]

theorem charListLe_antisymm : ∀ a b : List Char,
    charListLe a b = true → charListLe b a = true → a = b := by
  intro a
  induction a with
  | nil =>
    intro b h1 h2
    cases b with
    | nil => rfl
    | cons y ys => simp [charListLe] at h2
  | cons x xs ih =>
    intro b h1 h2
    cases b with
    | nil => simp [charListLe] at h1
    | cons y ys =>
      by_cases hxy : x.toNat < y.toNat
      · exfalso
        have hyx : ¬ y.toNat < x.toNat := by omega
        simp [charListLe, hyx, hxy] at h2
      · by_cases hyx : y.toNat < x.toNat
        · exfalso
          simp [charListLe, hxy, hyx] at h1
        · have hx : x = y := char_eq_of_toNat x y (by omega)
          subst hx
          simp [charListLe] at h1 h2
          rw [ih ys h1 h2]

theorem charListLe_trans : ∀ a b c : List Char,
    charListLe a b = true → charListLe b c = true →
    charListLe a c = true := by
  intro a
  induction a with
  | nil => intro b c h1 h2; rfl
  | cons x xs ih =>
    intro b c h1 h2
    cases b with
    | nil => simp [charListLe] at h1
    | cons y ys =>
      cases c with
      | nil => simp [charListLe] at h2
      | cons z zs =>
        by_cases hxz : x.toNat < z.toNat
        · simp [charListLe, hxz]
        · by_cases hxy : x.toNat < y.toNat
          · by_cases hyz : y.toNat < z.toNat
            · omega
            · by_cases hzy : z.toNat < y.toNat
              · simp [charListLe, hyz, hzy] at h2
              · omega
          · by_cases hyx : y.toNat < x.toNat
            · simp [charListLe, hxy, hyx] at h1
            · by_cases hyz : y.toNat < z.toNat
              · omega
              · by_cases hzy : z.toNat < y.toNat
                · simp [charListLe, hyz, hzy] at h2
                · have hzx : ¬ z.toNat < x.toNat := by omega
                  simp [charListLe, hxy, hyx, hyz, hzy] at h1 h2
                  simp [charListLe, hxz, hzx]
                  exact ih ys zs h1 h2

theorem strLe_total (a b : String) : strLe a b = true ∨ strLe b a = true :=
  charListLe_total a.toList b.toList

theorem strLe_trans (a b c : String) (h1 : strLe a b = true)
    (h2 : strLe b c = true) : strLe a c = true :=
  charListLe_trans _ _ _ h1 h2

theorem strLe_antisymm (a b : String) (h1 : strLe a b = true)
    (h2 : strLe b a = true) : a = b := by
  have h3 : a.toList = b.toList := charListLe_antisymm _ _ h1 h2
  exact congrArg String.mk h3

/-- The keys of the grouped representation after one addPair step. -/
theorem addPair_keys (l : List (String × List String)) (p : String × String) :
    (addPair l p).map Prod.fst =
      if p.1 ∈ l.map Prod.fst then l.map Prod.fst
      else l.map Prod.fst ++ [p.1] := by
  induction l with
  | nil => simp [addPair]
  | cons hd tl ih =>
    obtain ⟨k0, vs⟩ := hd
    by_cases hk : k0 = p.1
    · subst hk
      have h1 : addPair ((p.1, vs) :: tl) p = (p.1, vs ++ [p.2]) :: tl := by
        simp [addPair]
      rw [h1, if_pos (by simp)]
      simp
    · have h1 : addPair ((k0, vs) :: tl) p = (k0, vs) :: addPair tl p := by
        simp [addPair, hk]
      rw [h1]
      by_cases hm : p.1 ∈ tl.map Prod.fst
      · rw [if_pos (by simp [hm])]
        simp [ih, hm]
      · have hne : ¬ p.1 ∈ ((k0, vs) :: tl).map Prod.fst := by
          simp [hm]
          exact fun h => hk h.symm
        rw [if_neg hne]
        simp [ih, hm]

/-- Folding addPair preserves key distinctness. -/
theorem foldl_addPair_keys_nodup (ps : List (String × String)) :
    ∀ acc : List (String × List String), (acc.map Prod.fst).Nodup →
      ((ps.foldl addPair acc).map Prod.fst).Nodup := by
  induction ps with
  | nil => intro acc h; simpa using h
  | cons p pt ih =>
    intro acc h
    rw [List.foldl_cons]
    apply ih
    rw [addPair_keys]
    by_cases hm : p.1 ∈ acc.map Prod.fst
    · rw [if_pos hm]
      exact h
    · rw [if_neg hm]
      refine List.nodup_append.mpr ⟨h, List.nodup_singleton _, ?_⟩
      intro x hx hx2
      exact hm ((List.mem_singleton.mp hx2) ▸ hx)

/-- parse_qs produces pairwise-distinct keys (a Python dict). -/
theorem parseQs_keys_nodup (q : String) :
    ((parseQs q).map Prod.fst).Nodup :=
  foldl_addPair_keys_nodup (parseQsl q) [] (by simp)

theorem orderedInsert_map_normPair (a : String × List String)
    (l : List (String × List String)) :
    (List.orderedInsert (fun x y => strLe x.1 y.1 = true) a l).map normPair =
      List.orderedInsert (fun x y => strLe x.1 y.1 = true) (normPair a)
        (l.map normPair) := by
  induction l with
  | nil => rfl
  | cons b t ih =>
    simp only [List.orderedInsert, List.map_cons]
    by_cases h : strLe a.1 b.1 = true
    · rw [if_pos h,
        if_pos (show strLe (normPair a).1 (normPair b).1 = true from h)]
      simp
    · rw [if_neg h,
        if_neg (show ¬ strLe (normPair a).1 (normPair b).1 = true from h)]
      simp only [List.map_cons, ih]

theorem insertionSort_map_normPair (l : List (String × List String)) :
    (List.insertionSort (fun x y => strLe x.1 y.1 = true) l).map normPair =
      List.insertionSort (fun x y => strLe x.1 y.1 = true)
        (l.map normPair) := by
  induction l with
  | nil => rfl
  | cons a t ih =>
    simp only [List.insertionSort, List.map_cons]
    rw [orderedInsert_map_normPair, ih]

/-- The canonical query is the raw-key normal form, sorted by raw key and
rendered. -/
theorem canonicalQuery_eq_render (q : String) :
    canonicalQuery q = String.intercalate "&"
      ((List.insertionSort (fun x y => strLe x.1 y.1 = true)
        (rawNormQuery q)).map renderPair) := by
  have h1 : rawNormQuery q = (parseQs q).map normPair := rfl
  have h2 : canonicalQuery q = String.intercalate "&"
      ((List.insertionSort (fun x y => strLe x.1 y.1 = true)
        (parseQs q)).map (fun p => renderPair (normPair p))) := rfl
  rw [h2, h1, ← insertionSort_map_normPair, List.map_map]
  rfl

theorem rawNormQuery_keys_nodup (q : String) :
    ((rawNormQuery q).map Prod.fst).Nodup := by
  have h0 : rawNormQuery q = (parseQs q).map normPair := rfl
  have h1 : (rawNormQuery q).map Prod.fst = (parseQs q).map Prod.fst := by
    rw [h0, List.map_map]
    rfl
  rw [h1]
  exact parseQs_keys_nodup q

/-- Two key-distinct lists that are permutations of one another sort to
the same list under the raw-key order. -/
theorem sortedRaw_eq_of_perm (l1 l2 : List (String × List String))
    (hn1 : (l1.map Prod.fst).Nodup) (hn2 : (l2.map Prod.fst).Nodup)
    (hperm : l1.Perm l2) :
    List.insertionSort (fun x y => strLe x.1 y.1 = true) l1 =
      List.insertionSort (fun x y => strLe x.1 y.1 = true) l2 := by
  haveI : IsTotal (String × List String)
      (fun x y => strLe x.1 y.1 = true) :=
    ⟨fun a b => strLe_total a.1 b.1⟩
  haveI : IsTrans (String × List String)
      (fun x y => strLe x.1 y.1 = true) :=
    ⟨fun a b c => strLe_trans a.1 b.1 c.1⟩
  haveI : IsAntisymm (String × List String)
      (fun x y => strLe x.1 y.1 = true ∧ x.1 ≠ y.1) :=
    ⟨fun a b hab hba => absurd (strLe_antisymm _ _ hab.1 hba.1) hab.2⟩
  apply List.eq_of_perm_of_sorted
    (r := fun x y : String × List String => strLe x.1 y.1 = true ∧ x.1 ≠ y.1)
  · exact ((List.perm_insertionSort _ l1).trans hperm).trans
      (List.perm_insertionSort _ l2).symm
  · have hs := List.sorted_insertionSort
      (fun x y : String × List String => strLe x.1 y.1 = true) l1
    have hkeys : ((List.insertionSort (fun x y => strLe x.1 y.1 = true)
        l1).map Prod.fst).Nodup :=
      (((List.perm_insertionSort _ l1).map Prod.fst).nodup_iff).mpr hn1
    have hne : List.Pairwise (fun x y : String × List String => x.1 ≠ y.1)
        (List.insertionSort (fun x y => strLe x.1 y.1 = true) l1) :=
      List.pairwise_map.mp hkeys
    exact hs.and hne
  · have hs := List.sorted_insertionSort
      (fun x y : String × List String => strLe x.1 y.1 = true) l2
    have hkeys : ((List.insertionSort (fun x y => strLe x.1 y.1 = true)
        l2).map Prod.fst).Nodup :=
      (((List.perm_insertionSort _ l2).map Prod.fst).nodup_iff).mpr hn2
    have hne : List.Pairwise (fun x y : String × List String => x.1 ≠ y.1)
        (List.insertionSort (fun x y => strLe x.1 y.1 = true) l2) :=
      List.pairwise_map.mp hkeys
    exact hs.and hne

/-- The canonical query only depends on the raw-key normal form up to
order. -/
theorem canonicalQuery_eq_of_perm (q1 q2 : String)
    (h : (rawNormQuery q1).Perm (rawNormQuery q2)) :
    canonicalQuery q1 = canonicalQuery q2 := by
  rw [canonicalQuery_eq_render q1, canonicalQuery_eq_render q2,
    sortedRaw_eq_of_perm (rawNormQuery q1) (rawNormQuery q2)
      (rawNormQuery_keys_nodup q1) (rawNormQuery_keys_nodup q2) h]

/-! ## Claim theorems -/

/-- Claim C1 (code bug).  The guard on line 282 of the source is
if html and (status >= 200 or status <= 299); the disjunction is a
tautology over the integers, so the user hook is invoked for every
non-empty body whatever the status.  At the failing input status 404 with
a non-empty body the code does process the page although 404 is outside
200..299, contradicting the claimed if-and-only-if condition. -/
theorem c1_hook_condition_tautology :
    (∀ (status : Int) (html : String),
      shouldProcess status html = (html != "")) ∧
    shouldProcess 404 "<html><a href=x></a></html>" = true ∧
    ¬(200 ≤ (404 : Int) ∧ (404 : Int) ≤ 299) := by
  refine ⟨fun status html => ?_, by decide, by decide⟩
  have h : (decide (200 ≤ status) || decide (status ≤ 299)) = true := by
    rcases le_or_lt 200 status with h | h
    · simp [h]
    · have h2 : status ≤ 299 := by omega
      simp [h2]
  simp [shouldProcess, h]

/-- Claim C2 (confirmed).  For an existing, non-falsy token id, the reset
performed at the start of resume succeeds and sets fetched=false on
exactly the rows of that token having processed=false and fetched=true:
afterwards every row of the token is processed or re-claimable, and no
other row or field is modified. -/
theorem c2_resume_reset (tokens : List Token) (tokenId : Nat)
    (urls : List URLRecord) (h0 : tokenId ≠ 0)
    (h1 : ∃ t ∈ tokens, t.id = tokenId) :
    resumeReset tokens tokenId urls = .ok (resetInflight tokenId urls) ∧
    ResetSpec tokenId urls (resetInflight tokenId urls) := by
  constructor
  · unfold resumeReset
    rw [if_neg h0]
    obtain ⟨t, ht, hid⟩ := h1
    cases hf : tokens.find? (fun t => t.id == tokenId) with
    | none =>
      exfalso
      have := List.find?_eq_none.mp hf t ht
      simp [hid] at this
    | some _ => rfl
  · refine ⟨List.length_map _ _, ?_, ?_⟩
    · intro r hr htok
      obtain ⟨r0, _, rfl⟩ := List.mem_map.mp hr
      by_cases hc : r0.token_id = tokenId ∧ r0.processed = false ∧
          r0.fetched = true
      · rw [if_pos hc]
        exact Or.inr ⟨rfl, hc.2.1⟩
      · rw [if_neg hc] at htok ⊢
        cases hp : r0.processed with
        | true => exact Or.inl rfl
        | false =>
          cases hfe : r0.fetched with
          | false => exact Or.inr ⟨rfl, rfl⟩
          | true => exact absurd ⟨htok, hp, hfe⟩ hc
    · intro i r r' h1 h2
      unfold resetInflight at h2
      rw [List.getElem?_map, h1] at h2
      replace h2 :
          some (if r.token_id = tokenId ∧ r.processed = false ∧
              r.fetched = true then { r with fetched := false } else r) =
            some r' := h2
      rw [Option.some_inj] at h2
      constructor
      · intro hskip
        by_cases hc : r.token_id = tokenId ∧ r.processed = false ∧
            r.fetched = true
        · rcases hskip with h | h | h
          · exact absurd hc.1 h
          · rw [hc.2.1] at h; cases h
          · rw [hc.2.2] at h; cases h
        · rw [if_neg hc] at h2; exact h2.symm
      · intro ha hb hc2
        rw [if_pos ⟨ha, hb, hc2⟩] at h2
        exact h2.symm

/-- Witness for c2_resume_reset at a concrete state. -/
theorem c2_resume_reset_witness :
    resumeReset [⟨1, "https://e.com/", .ALL⟩] 1
        [⟨1, some "h", 1, "https://e.com/", none, true, false⟩] =
      .ok (resetInflight 1
        [⟨1, some "h", 1, "https://e.com/", none, true, false⟩]) ∧
    ResetSpec 1 [⟨1, some "h", 1, "https://e.com/", none, true, false⟩]
      (resetInflight 1
        [⟨1, some "h", 1, "https://e.com/", none, true, false⟩]) :=
  c2_resume_reset [⟨1, "https://e.com/", .ALL⟩] 1
    [⟨1, some "h", 1, "https://e.com/", none, true, false⟩]
    (by decide) ⟨⟨1, "https://e.com/", .ALL⟩, by simp, rfl⟩

/-- Claim C3 (counterexample).  With a row carrying the same
(token_id, hash_id) already present, _add_url does not return normally:
the INSERT violates the UNIQUE constraint and the IntegrityError
propagates (there is no try/except in _add_url). -/
theorem c3_counterexample :
    addUrl 7 "https://e.com/x" (some "abc")
        [⟨1, some "abc", 7, "https://e.com/", none, false, false⟩] =
      .error .integrityError := by decide

/-- Claim C3 (amended).  Inserting a URL whose fingerprint already exists
for the token raises the store's IntegrityError to the caller instead of
being swallowed; the table is left unchanged only because the failed
INSERT has no effect. -/
theorem c3_add_url_collision_raises (urls : List URLRecord) (tokenId : Nat)
    (url h : String)
    (hex : ∃ r ∈ urls, r.token_id = tokenId ∧ r.hash_id = some h) :
    addUrl tokenId url (some h) urls = .error .integrityError := by
  unfold addUrl
  obtain ⟨r, hr, htok, hh⟩ := hex
  have : urls.any (fun r =>
      r.token_id == tokenId && (some h).isSome && r.hash_id == some h) =
      true := by
    refine List.any_eq_true.mpr ⟨r, hr, ?_⟩
    simp [htok, hh]
  rw [if_pos this]

/-- Witness for c3_add_url_collision_raises at a concrete state. -/
theorem c3_add_url_collision_raises_witness :
    addUrl 7 "https://e.com/y" (some "qq")
        [⟨3, some "qq", 7, "https://e.com/", none, false, true⟩] =
      .error .integrityError :=
  c3_add_url_collision_raises
    [⟨3, some "qq", 7, "https://e.com/", none, false, true⟩] 7
    "https://e.com/y" "qq"
    ⟨⟨3, some "qq", 7, "https://e.com/", none, false, true⟩, by simp, rfl, rfl⟩

/-- Claim C6 (counterexample).  The first and second scenario URLs do not
share a fingerprint: the code preserves the trailing slash of the
canonical path (it only collapses runs of slashes), so /a/b/ and /a/b hash
differently. -/
theorem c6_counterexample :
    fingerprint "https://Example.com/a//b/?b=2&a=1#frag" none ≠
      fingerprint "https://www.example.com/a/b?a=1&b=2" none := by decide

/-- Claim C6 (amended).  URLs 1 and 3 share the fingerprint
a1e5a9babab5b6de893c141e16f755e4 (canonical path /a/b/, query a=1&b=2);
URL 2 keeps path /a/b and hashes to 38ff79c9a9b918315ccd1904ab85499c,
different from the other two. -/
theorem c6_fingerprint_scenario :
    fingerprint "https://Example.com/a//b/?b=2&a=1#frag" none =
      some "a1e5a9babab5b6de893c141e16f755e4" ∧
    fingerprint "HTTPS://example.com/a//b/?A=1&B=2" none =
      some "a1e5a9babab5b6de893c141e16f755e4" ∧
    fingerprint "https://www.example.com/a/b?a=1&b=2" none =
      some "38ff79c9a9b918315ccd1904ab85499c" ∧
    hashPathOf (pyUrlsplit "https://Example.com/a//b/?b=2&a=1").path =
      "/a/b/" ∧
    hashPathOf (pyUrlsplit "https://www.example.com/a/b?a=1&b=2").path =
      "/a/b" ∧
    canonicalQuery (pyUrlsplit "https://Example.com/a//b/?b=2&a=1").query =
      "a=1&b=2" ∧
    canonicalQuery (pyUrlsplit "HTTPS://example.com/a//b/?A=1&B=2").query =
      "a=1&b=2" ∧
    canonicalQuery
        (pyUrlsplit "https://www.example.com/a/b?a=1&b=2").query =
      "a=1&b=2" := by
  refine ⟨by decide, by decide, by decide, by decide, by decide, by decide,
    by decide, by decide⟩

/-- Setting a position of the phase list to a phase of smaller rank
strictly decreases the rank sum. -/
theorem sum_map_set_lt (l : List Phase) (i : Nat) (p q : Phase)
    (h : l[i]? = some p) (hlt : phaseRank q < phaseRank p) :
    ((l.set i q).map phaseRank).sum < (l.map phaseRank).sum := by
  induction l generalizing i with
  | nil => simp at h
  | cons x t ih =>
    cases i with
    | zero =>
      simp at h
      subst h
      simp only [List.set_cons_zero, List.map_cons, List.sum_cons]
      omega
    | succ j =>
      simp at h
      have := ih j h
      simp only [List.set_cons_succ, List.map_cons, List.sum_cons]
      omega

/-- Under quiescence every step preserves quiescence and strictly
decreases the rank measure. -/
theorem quiet_step_measure (i : Nat) (s s' : PoolState) (hs : Step i s s')
    (hq : Quiet s) : Quiet s' ∧ totalRank s' < totalRank s := by
  obtain ⟨hall, hfr⟩ := hq
  cases hs with
  | exit h1 h2 =>
    exact ⟨⟨hall, hfr⟩, sum_map_set_lt _ i _ _ h1 (by decide)⟩
  | claim n h1 h2 h3 =>
    rw [hall] at h2
    cases h2
  | idle h1 h2 h3 =>
    rw [hall] at h2
    cases h2
  | wake h1 =>
    exact ⟨⟨hall, hfr⟩, sum_map_set_lt _ i _ _ h1 (by decide)⟩
  | finishWork h1 =>
    exact ⟨⟨hall, hfr⟩, sum_map_set_lt _ i _ _ h1 (by decide)⟩

/-- Claim C5 (confirmed).  The pool terminates exactly under cooperative
quiescence: (1) a worker leaves its loop only when every idle bit is set;
(2) a step that dequeues a URL (shrinks the frontier) resets every idle
bit before any processing; (3) once every worker has observed the empty
frontier with no intervening reset (Quiet), every further step keeps the
pool quiescent and strictly decreases a finite measure; (4) a quiescent
pool is either finished or can step; (5) hence no infinite run exists
from a quiescent state: with a fetcher producing no new links every
worker terminates. -/
theorem c5_quiescent_termination :
    (∀ (i : Nat) (s s' : PoolState), Step i s s' →
      s.phases[i]? ≠ some Phase.done → s'.phases[i]? = some Phase.done →
      allFree s.bits = true) ∧
    (∀ (i : Nat) (s s' : PoolState), Step i s s' →
      s'.frontier < s.frontier → s'.bits = resetTasks s.bits.length) ∧
    (∀ (i : Nat) (s s' : PoolState), Step i s s' → Quiet s →
      Quiet s' ∧ totalRank s' < totalRank s) ∧
    (∀ s : PoolState, Quiet s → AllDone s ∨ ∃ i s', Step i s s') ∧
    (∀ f : ℕ → PoolState, Quiet (f 0) →
      ¬(∀ k, ∃ i, Step i (f k) (f (k + 1)))) := by
  refine ⟨?_, ?_, ?_, ?_, ?_⟩
  · intro i s s' hs hnd hd
    cases hs with
    | exit h1 h2 => exact h2
    | claim n h1 h2 h3 =>
      obtain ⟨hi, _⟩ := List.getElem?_eq_some.mp h1
      rw [List.getElem?_set_self hi] at hd
      cases hd
    | idle h1 h2 h3 =>
      obtain ⟨hi, _⟩ := List.getElem?_eq_some.mp h1
      rw [List.getElem?_set_self hi] at hd
      cases hd
    | wake h1 =>
      obtain ⟨hi, _⟩ := List.getElem?_eq_some.mp h1
      rw [List.getElem?_set_self hi] at hd
      cases hd
    | finishWork h1 =>
      obtain ⟨hi, _⟩ := List.getElem?_eq_some.mp h1
      rw [List.getElem?_set_self hi] at hd
      cases hd
  · intro i s s' hs hlt
    cases hs with
    | exit h1 h2 => exact absurd hlt (lt_irrefl _)
    | claim n h1 h2 h3 => rfl
    | idle h1 h2 h3 =>
      rw [h3] at hlt
      exact absurd hlt (by omega)
    | wake h1 => exact absurd hlt (lt_irrefl _)
    | finishWork h1 => exact absurd hlt (lt_irrefl _)
  · exact fun i s s' hs hq => quiet_step_measure i s s' hs hq
  · intro s hq
    by_cases h : AllDone s
    · exact Or.inl h
    · refine Or.inr ?_
      unfold AllDone at h
      push_neg at h
      obtain ⟨p, hmem, hne⟩ := h
      obtain ⟨n, hn, heq⟩ := List.getElem_of_mem hmem
      have hget : s.phases[n]? = some p := List.getElem?_eq_some.mpr ⟨hn, heq⟩
      cases p with
      | check => exact ⟨n, _, Step.exit s hget hq.1⟩
      | sleeping => exact ⟨n, _, Step.wake s hget⟩
      | working => exact ⟨n, _, Step.finishWork s hget⟩
      | done => exact absurd rfl hne
  · intro f hq hstep
    have key : ∀ k, Quiet (f k) ∧ totalRank (f k) + k ≤ totalRank (f 0) := by
      intro k
      induction k with
      | zero => exact ⟨hq, by omega⟩
      | succ j ih =>
        obtain ⟨i, hs⟩ := hstep j
        obtain ⟨hq2, hlt⟩ := quiet_step_measure i (f j) (f (j + 1)) hs ih.1
        exact ⟨hq2, by omega⟩
    have hend := (key (totalRank (f 0) + 1)).2
    omega

/-- Witness for c5_quiescent_termination: its quiescence-preservation part
applied to a concrete exit step of worker 0 in a quiescent two-worker
pool. -/
theorem c5_quiescent_termination_witness :
    Quiet ⟨[true, true], 0, [Phase.done, Phase.sleeping]⟩ ∧
    totalRank ⟨[true, true], 0, [Phase.done, Phase.sleeping]⟩ <
      totalRank ⟨[true, true], 0, [Phase.check, Phase.sleeping]⟩ :=
  c5_quiescent_termination.2.2.1 0
    ⟨[true, true], 0, [Phase.check, Phase.sleeping]⟩
    ⟨[true, true], 0, [Phase.done, Phase.sleeping]⟩
    (Step.exit ⟨[true, true], 0, [Phase.check, Phase.sleeping]⟩
      (by decide) (by decide))
    ⟨by decide, by decide⟩

/-- Claim C7 (counterexample).  The queries B=2&a=1 and b=2&a=1 are equal
after lowercasing keys and values, yet the fingerprints differ: the code
sorts the pairs by the raw key before lowercasing it, and B precedes a in
code-point order while b follows it. -/
theorem c7_counterexample :
    (lowerNormQuery "B=2&a=1").Perm (lowerNormQuery "b=2&a=1") ∧
    urlHash "https://example.com/?B=2&a=1" ≠
      urlHash "https://example.com/?b=2&a=1" := by
  constructor
  · have h : lowerNormQuery "B=2&a=1" = lowerNormQuery "b=2&a=1" := by decide
    rw [h]
  · decide

/-- Claim C8 (counterexample).  Against parent https://h.net/x/y.html the
link ../z/q.html does not canonicalise to https://h.net/z/q.html: the
code replaces the last path segment textually and never normalises dot
segments. -/
theorem c8_counterexample :
    urldataInit "../z/q.html" (some "https://h.net/x/y.html") ≠
      .ok (some "https://h.net/z/q.html") := by decide

/-- Claim C8 (amended).  Relative resolution against
https://h.net/x/y.html: ../z/q.html yields https://h.net/x/../z/q.html
(dot segments are kept), //cdn.h.net/s.js yields https://cdn.h.net/s.js,
?page=2 yields https://h.net/x/y.html?page=2, and #top is invalid. -/
theorem c8_relative_resolution :
    urldataInit "../z/q.html" (some "https://h.net/x/y.html") =
      .ok (some "https://h.net/x/../z/q.html") ∧
    urldataInit "//cdn.h.net/s.js" (some "https://h.net/x/y.html") =
      .ok (some "https://cdn.h.net/s.js") ∧
    urldataInit "?page=2" (some "https://h.net/x/y.html") =
      .ok (some "https://h.net/x/y.html?page=2") ∧
    urldataInit "#top" (some "https://h.net/x/y.html") = .ok none := by
  refine ⟨by decide, by decide, by decide, by decide⟩

/-- Claim C4 (counterexample).  URLData.__init__ can raise: a schemeless
link with no parent reaches re.match(regex, None), which raises TypeError
(classes.py line 60), and a URL whose authority contains an unmatched
bracket makes urlsplit raise ValueError. -/
theorem c4_counterexample :
    urldataInit "foo/bar" none = .error .typeError ∧
    urldataInit "http://[abc" (some "https://h.net/") =
      .error .valueError := by
  exact ⟨by decide, by decide⟩

/-- Claim C4 (amended).  When a parent is supplied and the link text
contains no square bracket, URLData.__init__ never raises: it returns a
canonical URL or the not-valid sentinel. -/
theorem c4_no_exception (u p : String)
    (h : ∀ x ∈ u.toList, x ≠ '[' ∧ x ≠ ']') :
    ∃ r, urldataInit u (some p) = .ok r := by
  have hb : ∀ x ∈ (stripFragment u).toList, x ≠ '[' ∧ x ≠ ']' :=
    fun x hx => h x (stripFragment_subset u x hx)
  have h1 : urlsplitRaises (stripFragment u) = false :=
    urlsplitRaises_false_of_no_brackets _ hb
  unfold urldataInit
  rw [if_neg (by simp [h1])]
  by_cases h2 : matchesAbsolute (stripFragment u)
  · rw [if_pos h2]
    exact ⟨_, rfl⟩
  · rw [if_neg h2]
    by_cases h3 : (pyUrlsplit (stripFragment u)).scheme ≠ ""
    · rw [if_pos h3]
      exact ⟨_, rfl⟩
    · rw [if_neg h3]
      dsimp only
      by_cases h4 : ¬ matchesAbsolute p
      · rw [if_pos h4]
        exact ⟨_, rfl⟩
      · rw [if_neg h4]
        by_cases h5 : u = "" ∨ strStarts u "#"
        · rw [if_pos h5]
          exact ⟨_, rfl⟩
        · rw [if_neg h5]
          by_cases h6 :
              ¬ matchesAbsolute (stripFragment (resolveRelative u p))
          · rw [if_pos h6]
            exact ⟨_, rfl⟩
          · rw [if_neg h6]
            have h7 : urlsplitRaises
                (stripFragment (resolveRelative u p)) = false :=
              urlsplitRaises_false_of_matches _ (not_not.mp h6)
            rw [if_neg (by simp [h7])]
            exact ⟨_, rfl⟩

theorem c4_no_exception_witness :
    (∀ x ∈ ("foo/bar" : String).toList, x ≠ '[' ∧ x ≠ ']') ∧
    ∃ r, urldataInit "foo/bar" (some "https://h.net/x/y.html") = .ok r :=
  ⟨by decide, c4_no_exception "foo/bar" "https://h.net/x/y.html" (by decide)⟩

/-- Claim C9 (confirmed).  Canonicalisation is idempotent: whenever the
canonicaliser accepts u (with any parent) and produces the canonical URL
c, canonicalising c again with no parent yields exactly c again, and the
fingerprints of the two results agree. -/
theorem c9_idempotent (u : String) (p : Option String) (c : String)
    (h : urldataInit u p = .ok (some c)) :
    urldataInit c none = .ok (some c) ∧
    fingerprint c none = fingerprint u p := by
  obtain ⟨hm, hnh⟩ := urldataInit_valid u p c h
  have hsf : stripFragment c = c := stripFragment_of_no_hash c hnh
  have hr : urlsplitRaises c = false := urlsplitRaises_false_of_matches c hm
  have h2 : urldataInit c none = .ok (some c) := by
    unfold urldataInit
    rw [hsf]
    rw [if_neg (by simp [hr])]
    rw [if_pos hm]
  refine ⟨h2, ?_⟩
  unfold fingerprint
  rw [h, h2]

theorem c9_idempotent_witness :
    urldataInit "https://Example.com/a//b/?b=2&a=1#frag" none =
      .ok (some "https://Example.com/a//b/?b=2&a=1") ∧
    (urldataInit "https://Example.com/a//b/?b=2&a=1" none =
       .ok (some "https://Example.com/a//b/?b=2&a=1") ∧
     fingerprint "https://Example.com/a//b/?b=2&a=1" none =
       fingerprint "https://Example.com/a//b/?b=2&a=1#frag" none) :=
  ⟨by decide, c9_idempotent "https://Example.com/a//b/?b=2&a=1#frag" none
    "https://Example.com/a//b/?b=2&a=1" (by decide)⟩

/-- Claim C10 (confirmed).  Every canonical URL the constructor accepts
has scheme http or https, contains no hash character, and its hash (hence
the fingerprint of the original link) is defined and is a 32-character
lowercase hexadecimal string. -/
theorem c10_valid_invariants (u : String) (p : Option String) (c : String)
    (h : urldataInit u p = .ok (some c)) :
    ((pyUrlsplit c).scheme = "http" ∨ (pyUrlsplit c).scheme = "https") ∧
    (∀ x ∈ c.toList, x ≠ '#') ∧
    ∃ hx : String, urlHash c = some hx ∧ fingerprint u p = some hx ∧
      hx.length = 32 ∧ ∀ ch ∈ hx.toList, isLowerHexDigit ch = true := by
  obtain ⟨hp, hall, hnet, hscheme⟩ := pyUrlsplit_of_matches c
    (urldataInit_valid u p c h).1
  have hnh := (urldataInit_valid u p c h).2
  refine ⟨hscheme, hnh, ?_⟩
  have hstart : strStarts (pyUrlsplit c).scheme "http" = true := by
    rcases hscheme with h1 | h1 <;> rw [h1] <;> decide
  have hhash : urlHash c =
      some (md5hex (utf8Encode (hashPreimage (pyUrlsplit c)))) := by
    simp only [urlHash]
    rw [if_pos hstart]
  have hfp : fingerprint u p = urlHash c := by
    unfold fingerprint
    rw [h]
  refine ⟨md5hex (utf8Encode (hashPreimage (pyUrlsplit c))), hhash, ?_, ?_, ?_⟩
  · rw [hfp, hhash]
  · exact (md5hex_spec _).1
  · exact (md5hex_spec _).2

theorem c10_valid_invariants_witness :
    urldataInit "https://example.com/a" none =
      .ok (some "https://example.com/a") ∧
    (((pyUrlsplit "https://example.com/a").scheme = "http" ∨
      (pyUrlsplit "https://example.com/a").scheme = "https") ∧
     (∀ x ∈ ("https://example.com/a" : String).toList, x ≠ '#') ∧
     ∃ hx : String, urlHash "https://example.com/a" = some hx ∧
       fingerprint "https://example.com/a" none = some hx ∧
       hx.length = 32 ∧ ∀ ch ∈ hx.toList, isLowerHexDigit ch = true) :=
  ⟨by decide, c10_valid_invariants "https://example.com/a" none
    "https://example.com/a" (by decide)⟩

/-- Claim C7 (amended).  In the fingerprint's query component the values
of each key are lowercased, sorted ascending and joined by the hash sign,
keys are lowercased only in the rendering, and the pairs are sorted by the
RAW key (sorted(parsed_query.items()) runs before the lowercasing), then
joined by the ampersand.  Consequently two URLs whose scheme, netloc and
path components agree and whose parsed queries agree as unordered
collections of (raw key, lowercased-and-sorted values) pairs have equal
hashes; queries whose keys differ in letter case may hash apart, as the
counterexample shows. -/
theorem c7_query_canonicalisation (u1 u2 : String)
    (hs : (pyUrlsplit u1).scheme = (pyUrlsplit u2).scheme)
    (hn : (pyUrlsplit u1).netloc = (pyUrlsplit u2).netloc)
    (hp : (pyUrlsplit u1).path = (pyUrlsplit u2).path)
    (hq : (rawNormQuery (pyUrlsplit u1).query).Perm
          (rawNormQuery (pyUrlsplit u2).query)) :
    urlHash u1 = urlHash u2 := by
  have hpre : hashPreimage (pyUrlsplit u1) = hashPreimage (pyUrlsplit u2) := by
    unfold hashPreimage
    rw [hs, hn, hp, canonicalQuery_eq_of_perm _ _ hq]
  simp only [urlHash]
  rw [hs, hpre]

theorem c7_query_canonicalisation_witness :
    ((pyUrlsplit "https://example.com/?a=1&b=2").scheme =
       (pyUrlsplit "https://example.com/?b=2&a=1").scheme ∧
     (pyUrlsplit "https://example.com/?a=1&b=2").netloc =
       (pyUrlsplit "https://example.com/?b=2&a=1").netloc ∧
     (pyUrlsplit "https://example.com/?a=1&b=2").path =
       (pyUrlsplit "https://example.com/?b=2&a=1").path ∧
     (rawNormQuery (pyUrlsplit "https://example.com/?a=1&b=2").query).Perm
       (rawNormQuery (pyUrlsplit "https://example.com/?b=2&a=1").query)) ∧
    urlHash "https://example.com/?a=1&b=2" =
      urlHash "https://example.com/?b=2&a=1" :=
  ⟨⟨by decide, by decide, by decide, by decide⟩,
   c7_query_canonicalisation "https://example.com/?a=1&b=2"
     "https://example.com/?b=2&a=1" (by decide) (by decide) (by decide)
     (by decide)⟩

end GreenCrawler
